import Mathlib

/-!
Verification development for the multi-file relationship analysis and
service-grouping engine (`ContextAnalyzer`, src/analyzers/context-analyzer.ts).

The TypeScript class is shallowly embedded: file paths are `String`s,
Node `path` helpers are implemented over `List Char`, the JavaScript
regular-expression scans of the relationship extractor are implemented as
explicit scanners with the same match semantics, filesystem access is an
oracle (`FSModel`) whose failable operations return `Except IOErr`, and the
structural-fact provider (`ParserFactory.parseFile`) is an oracle
`String → Option CodeModule`.
-/

namespace ContextAnalyzer

/-! ## Character and string utilities (JavaScript semantics) -/

/-- JavaScript `\s` for the characters that occur in source text
(space, tab, newline, carriage return, vertical tab, form feed).
Unicode space characters are not modelled. -/
def isJsSpace (c : Char) : Bool :=
  c = ' ' || c = '\t' || c = '\n' || c = '\r' || c = '\x0b' || c = '\x0c'

/-- JavaScript `\w`: ASCII letters, digits and underscore. -/
def isWordChar (c : Char) : Bool :=
  c.isAlpha || c.isDigit || c = '_'

/-- `startsWithL l pat` : does `l` start with `pat` (JS `String.startsWith`). -/
def startsWithL : List Char → List Char → Bool
  | _, [] => true
  | [], _ :: _ => false
  | c :: cs, p :: ps => c = p && startsWithL cs ps

/-- `endsWithL l pat` : does `l` end with `pat` (JS `String.endsWith`). -/
def endsWithL (l pat : List Char) : Bool :=
  startsWithL l.reverse pat.reverse

/-- `containsSub l pat` : does `l` contain `pat` as a contiguous substring
(JS `String.includes`). -/
def containsSub : List Char → List Char → Bool
  | [], pat => startsWithL [] pat
  | l@(_ :: cs), pat => startsWithL l pat || containsSub cs pat

/-- JS `String.trim` (both ends, `\s`). -/
def trimJs (l : List Char) : List Char :=
  ((l.dropWhile isJsSpace).reverse.dropWhile isJsSpace).reverse

/-- JS `String.split(sep)` for a single-character separator; keeps empties. -/
def splitOnCharL (sep : Char) : List Char → List (List Char)
  | [] => [[]]
  | c :: cs =>
    if c = sep then [] :: splitOnCharL sep cs
    else
      match splitOnCharL sep cs with
      | [] => [[c]]
      | h :: t => (c :: h) :: t

/-- Lowercase a string character-wise (JS `toLowerCase` on ASCII input). -/
def lowerStr (s : String) : String :=
  ⟨s.toList.map Char.toLower⟩

/-- String version of `startsWithL`. -/
def startsWithS (s pat : String) : Bool := startsWithL s.toList pat.toList

/-- String version of `endsWithL`. -/
def endsWithS (s pat : String) : Bool := endsWithL s.toList pat.toList

/-- String version of `containsSub`. -/
def containsS (s pat : String) : Bool := containsSub s.toList pat.toList

/-! ## Node `path` module (posix behaviour) -/

/-- Remove trailing `/` characters. -/
def dropTrailingSlashes (l : List Char) : List Char :=
  (l.reverse.dropWhile (fun c => c = '/')).reverse

/-- The final path segment of a list with no trailing slashes. -/
def lastSegmentL (l : List Char) : List Char :=
  (l.reverse.takeWhile (fun c => ¬ c = '/')).reverse

/-- Node `path.basename(p)`. -/
def basename (p : String) : String :=
  let l := p.toList
  let q := dropTrailingSlashes l
  if q = [] then (if l = [] then "" else "/") else ⟨lastSegmentL q⟩

/-- Node `path.dirname(p)`. -/
def dirname (p : String) : String :=
  let l := p.toList
  let q := dropTrailingSlashes l
  if q = [] then (if l = [] then "." else "/")
  else
    let seg := lastSegmentL q
    let r := dropTrailingSlashes (q.take (q.length - seg.length))
    if r = [] then (if q.headD ' ' = '/' then "/" else ".") else ⟨r⟩

/-- Node `path.extname(p)` restricted to its basename: the suffix of `b`
from its last dot, empty when there is no dot, when the only dot is the
leading character of a dotfile, or for the special name `".."`. -/
def extnameOfBase (b : List Char) : String :=
  let afterDot := b.reverse.takeWhile (fun c => ¬ c = '.')
  if afterDot.length = b.length then ""
  else if b.length - afterDot.length - 1 = 0 then ""
  else if b = ['.', '.'] then ""
  else ⟨b.drop (b.length - afterDot.length - 1)⟩

/-- Node `path.extname(p)`. -/
def extname (p : String) : String :=
  extnameOfBase (basename p).toList

/-- Node `path.basename(p, ext)`: the basename with the suffix `ext`
removed when it is a proper suffix. -/
def basenameWith (p ext : String) : String :=
  let f := basename p
  if ¬ ext = "" && endsWithS f ext && ¬ f = ext then
    ⟨f.toList.take (f.toList.length - ext.toList.length)⟩
  else f

/-- One segment step of path normalization; `acc` is the reversed stack of
kept segments. `isAbs` gives Node behaviour for `..` at the root. -/
def normStep (isAbs : Bool) (acc : List String) (s : String) : List String :=
  if s = "" || s = "." then acc
  else if s = ".." then
    match acc with
    | [] => if isAbs then [] else [".."]
    | t :: rest => if t = ".." then s :: t :: rest else rest
  else s :: acc

/-- Normalize a segment list (Node path normalization). -/
def normSegs (isAbs : Bool) (segs : List String) : List String :=
  (segs.foldl (normStep isAbs) []).reverse

/-- Join segments with `/`. -/
def joinSegs : List String → String
  | [] => ""
  | [s] => s
  | s :: rest => s ++ "/" ++ joinSegs rest

/-- Assemble a normalized path from its parts. -/
def assemblePath (isAbs : Bool) (segs : List String) : String :=
  match normSegs isAbs segs with
  | [] => if isAbs then "/" else "."
  | l => (if isAbs then "/" else "") ++ joinSegs l

/-- Split a path string into raw segments. -/
def rawSegs (p : String) : List String :=
  (splitOnCharL '/' p.toList).map (fun l => (⟨l⟩ : String))

/-- Node `path.join(a, b)`. -/
def joinPath (a b : String) : String :=
  let isAbs := startsWithS a "/"
  if a = "" && b = "" then "." else assemblePath isAbs (rawSegs a ++ rawSegs b)

/-- Node `path.resolve(a, b)` with explicit working directory `cwd`
(assumed absolute): right-most absolute argument wins, otherwise `cwd`
anchors the stack. -/
def pathResolve (cwd a b : String) : String :=
  let parts :=
    if startsWithS b "/" then [b]
    else if startsWithS a "/" then [a, b]
    else [cwd, a, b]
  assemblePath true ((parts.map rawSegs).flatten)

/-! ## Data model (src/types/index.ts)

`requestBody`/`responses` payloads are `any`-typed JSON in the source and
are not inspected by the analyzer; they are elided. `Date` is a timestamp. -/

/-- `Parameter`; the source field `in` is a reserved word here and is
named `inLocation`. -/
structure Parameter where
  name : String
  type : String
  inLocation : String
  required : Bool
  description : String
deriving DecidableEq

structure ApiEndpoint where
  method : String
  path : String
  description : String
  parameters : List Parameter
  tags : List String
  fileName : String
  lineNumber : Nat
deriving DecidableEq

structure FunctionInfo where
  name : String
  description : String
  parameters : List Parameter
  returnType : String
  annotations : List String
  lineNumber : Nat
deriving DecidableEq

structure PropertyInfo where
  name : String
  type : String
  description : String
  annotations : List String
deriving DecidableEq

structure ClassInfo where
  name : String
  description : String
  methods : List FunctionInfo
  properties : List PropertyInfo
  annotations : List String
  lineNumber : Nat
deriving DecidableEq

/-- Occurrences of a string in a list. -/
def countS (x : String) (l : List String) : Nat :=
  l.countP (fun y => decide (y = x))

/-- All member files of a group list. -/
def joinSnd (gs : List (String × List String)) : List String :=
  (gs.map Prod.snd).flatten

/-- The group names of a group list. -/
def groupNames (gs : List (String × List String)) : List String :=
  gs.map Prod.fst

/-- The language tag `'go' | 'java' | 'csharp'`. -/
inductive Language where
  | go
  | java
  | csharp
deriving DecidableEq

structure CodeModule where
  filePath : String
  language : Language
  endpoints : List ApiEndpoint
  classes : List ClassInfo
  functions : List FunctionInfo
  lastModified : Nat
deriving DecidableEq

/-- `FileRelationship.relationType`; the source values are string
literals, several of which are reserved words here, hence the `Rel`
suffixes (`importRel` is `'import'`, and so on). -/
inductive RelationType where
  | importRel
  | extendsRel
  | implementsRel
  | callsRel
  | referencesRel
  | configRel
deriving DecidableEq

structure FileRelationship where
  sourceFile : String
  targetFile : String
  relationType : RelationType
  details : String
deriving DecidableEq

structure ServiceContext where
  serviceName : String
  rootPath : String
  controllers : List CodeModule
  services : List CodeModule
  models : List CodeModule
  repositories : List CodeModule
  configurations : List CodeModule
  utilities : List CodeModule
  tests : List CodeModule
  relationships : List FileRelationship
  apiEndpoints : List ApiEndpoint
  businessLogic : List ClassInfo
  dataModels : List ClassInfo
deriving DecidableEq

/-! ## Service name extraction and file categorization (§4.2) -/

/-- The ordered suffix patterns of `extractServiceName`. -/
def servicePatterns : List String :=
  ["Controller", "Service", "Handler", "Repository", "Manager", "Provider", "Component"]

/-- Capture group 1 of JS `name.match(/(.+)Suffix$/i)`: the name must end
(case-insensitively) with the suffix; the capture is the maximal
newline-free run ending where the suffix starts (the regex engine takes
the first match position, which is just after the last `\n` before the
suffix) and must be nonempty. -/
def matchSuffixCapture (suffix : List Char) (name : List Char) : Option (List Char) :=
  if suffix.length < name.length then
    let k := name.length - suffix.length
    if (name.drop k).map Char.toLower = suffix.map Char.toLower then
      let cap := ((name.take k).reverse.takeWhile (fun c => ¬ c = '\n')).reverse
      if cap = [] then none else some cap
    else none
  else none

/-- First pattern whose match succeeds wins. -/
def firstPatternCapture : List String → List Char → Option String
  | [], _ => none
  | p :: ps, name =>
    match matchSuffixCapture p.toList name with
    | some cap => some ⟨cap⟩
    | none => firstPatternCapture ps name

/-- `ContextAnalyzer.extractServiceName`. -/
def extractServiceName (filePath : String) : String :=
  let fileName := basenameWith filePath (extname filePath)
  let dirName := basename (dirname filePath)
  match firstPatternCapture servicePatterns fileName.toList with
  | some cap => cap
  | none => if dirName = "." then "Root" else dirName

/-- `ContextAnalyzer.categorizeFile`. -/
def categorizeFile (filePath : String) : String :=
  let fileName := lowerStr (basename filePath)
  let dirName := lowerStr (basename (dirname filePath))
  if containsS fileName "controller" || containsS fileName "handler" || containsS fileName "router" then "controller"
  else if containsS fileName "service" || containsS fileName "manager" || containsS fileName "provider" then "service"
  else if containsS fileName "model" || containsS fileName "entity" || containsS fileName "dto" || containsS fileName "domain" then "model"
  else if containsS fileName "repository" || containsS fileName "dao" || containsS fileName "data" then "repository"
  else if containsS fileName "config" || containsS fileName "setting" || containsS fileName "property" then "config"
  else if containsS fileName "util" || containsS fileName "helper" || containsS fileName "tool" then "utility"
  else if containsS fileName "test" || containsS fileName "spec" then "test"
  else if ["controller", "controllers", "handler", "handlers"].contains dirName then "controller"
  else if ["service", "services", "business", "logic"].contains dirName then "service"
  else if ["model", "models", "entity", "entities", "domain", "dto"].contains dirName then "model"
  else if ["repository", "repositories", "dao", "data"].contains dirName then "repository"
  else if ["config", "configuration", "settings"].contains dirName then "config"
  else if ["util", "utils", "utility", "utilities", "helper", "helpers"].contains dirName then "utility"
  else if ["test", "tests", "spec", "specs"].contains dirName then "test"
  else "unknown"

/-! ## Filesystem oracle

`fs-extra` access is modelled by oracles; failable operations return
`Except IOErr`. `cwd` is the process working directory used by
`path.resolve`, assumed absolute. -/

structure IOErr where
  code : String
deriving DecidableEq

structure FSModel where
  cwd : String
  readFile : String → Except IOErr String
  pathExists : String → Bool
  readdir : String → Except IOErr (List String)

/-! ## Regex scanners

Each JS regular expression used by the relationship extractor is
implemented as a matcher that attempts the pattern at the start of the
input and returns the captures plus the input remaining after the match.
`scanWith` is the `regex.exec` loop over a `/g` regex: successive
non-overlapping matches with match start positions tried left to right.
Every pattern here consumes at least one character per match, so
`l.length` steps of fuel reproduce the loop exactly. -/

def scanWithF {α : Type} (m : List Char → Option (α × List Char)) : Nat → List Char → List α
  | 0, _ => []
  | _ + 1, [] => []
  | fuel + 1, l@(_ :: rest) =>
    match m l with
    | some (cap, after) => cap :: scanWithF m fuel after
    | none => scanWithF m fuel rest

def scanWith {α : Type} (m : List Char → Option (α × List Char)) (l : List Char) : List α :=
  scanWithF m l.length l

/-- Go: one match of `/import\s+(?:\(\s*([^)]+)\s*\)|"([^"]+)")/g`,
yielding `match[1] || match[2]`. In the parenthesized alternative the
leading `\s*` is greedy but backs off one character when `[^)]+` would
otherwise be empty. -/
def matchGoImportAt (l : List Char) : Option (List Char × List Char) :=
  if startsWithL l "import".toList then
    let r1 := l.drop 6
    let ws := r1.takeWhile isJsSpace
    if ws = [] then none
    else
      let r2 := r1.drop ws.length
      match r2 with
      | '(' :: r3 =>
        let inner := r3.takeWhile (fun c => ¬ c = ')')
        if inner.length = r3.length then none
        else if inner = [] then none
        else
          let t := inner.dropWhile isJsSpace
          let cap := if t = [] then inner.drop (inner.length - 1) else t
          some (cap, r3.drop (inner.length + 1))
      | '"' :: r3 =>
        let inner := r3.takeWhile (fun c => ¬ c = '"')
        if inner.length = r3.length then none
        else if inner = [] then none
        else some (inner, r3.drop (inner.length + 1))
      | _ => none
  else none

/-- The per-capture body of the Go import loop: split the captured block
on newlines, keep lines whose trim is nonempty, then per line remove all
`"` characters, trim, and keep the result when it is nonempty and does
not start with `//`. -/
def goImportRefs (cap : List Char) : List String :=
  ((splitOnCharL '\n' cap).filter (fun line => ¬ trimJs line = [])).filterMap
    (fun line =>
      let clean := trimJs (line.filter (fun c => ¬ c = '"'))
      if ¬ clean = [] && ¬ startsWithL clean ['/', '/'] then some ((⟨clean⟩ : String)) else none)

/-- Java: one match of `/import\s+(?:static\s+)?([^;]+);/g`; the optional
`static\s+` group backtracks to empty when the rest of the pattern cannot
match after it. -/
def matchJavaImportAt (l : List Char) : Option (List Char × List Char) :=
  if startsWithL l "import".toList then
    let r1 := l.drop 6
    let ws := r1.takeWhile isJsSpace
    if ws = [] then none
    else
      let r2 := r1.drop ws.length
      let tryBody : List Char → Option (List Char × List Char) := fun s =>
        let body := s.takeWhile (fun c => ¬ c = ';')
        if body = [] then none
        else if body.length = s.length then none
        else some (body, s.drop (body.length + 1))
      let staticTry : Option (List Char × List Char) :=
        if startsWithL r2 "static".toList then
          let r3 := r2.drop 6
          let ws2 := r3.takeWhile isJsSpace
          if ws2 = [] then none else tryBody (r3.drop ws2.length)
        else none
      match staticTry with
      | some res => some res
      | none => tryBody r2
  else none

/-- C#: one match of `/using\s+([^;]+);/g`. -/
def matchUsingAt (l : List Char) : Option (List Char × List Char) :=
  if startsWithL l "using".toList then
    let r1 := l.drop 5
    let ws := r1.takeWhile isJsSpace
    if ws = [] then none
    else
      let r2 := r1.drop ws.length
      let body := r2.takeWhile (fun c => ¬ c = ';')
      if body = [] then none
      else if body.length = r2.length then none
      else some (body, r2.drop (body.length + 1))
  else none

structure JavaClassMatch where
  className : List Char
  extendsName : Option (List Char)
  implementsList : Option (List Char)

/-- Java: one match of
`/class\s+(\w+)(?:\s+extends\s+(\w+))?(?:\s+implements\s+([\w,\s]+))?/g`.
In the `implements` group the greedy `\s+` backs off one character when
`[\w,\s]+` would otherwise be empty (so the capture can be a single
whitespace character). -/
def matchJavaClassAt (l : List Char) : Option (JavaClassMatch × List Char) :=
  if startsWithL l "class".toList then
    let r1 := l.drop 5
    let ws := r1.takeWhile isJsSpace
    if ws = [] then none
    else
      let r2 := r1.drop ws.length
      let cname := r2.takeWhile isWordChar
      if cname = [] then none
      else
        let r3 := r2.drop cname.length
        let extTry : Option (List Char × List Char) :=
          let w1 := r3.takeWhile isJsSpace
          if w1 = [] then none
          else
            let r4 := r3.drop w1.length
            if startsWithL r4 "extends".toList then
              let r5 := r4.drop 7
              let w2 := r5.takeWhile isJsSpace
              if w2 = [] then none
              else
                let r6 := r5.drop w2.length
                let ename := r6.takeWhile isWordChar
                if ename = [] then none else some (ename, r6.drop ename.length)
            else none
        let step1 : Option (List Char) × List Char :=
          match extTry with
          | some (e, r) => (some e, r)
          | none => (none, r3)
        let implTry : Option (List Char × List Char) :=
          let w1 := step1.2.takeWhile isJsSpace
          if w1 = [] then none
          else
            let r8 := step1.2.drop w1.length
            if startsWithL r8 "implements".toList then
              let r9 := r8.drop 10
              let w2 := r9.takeWhile isJsSpace
              if w2 = [] then none
              else
                let r10 := r9.drop w2.length
                let cap0 := r10.takeWhile (fun c => isWordChar c || c = ',' || isJsSpace c)
                if cap0 = [] then
                  if 2 ≤ w2.length then some (w2.drop (w2.length - 1), r10) else none
                else some (cap0, r10.drop cap0.length)
            else none
        match implTry with
        | some (cap, r) => some ({ className := cname, extendsName := step1.1, implementsList := some cap }, r)
        | none => some ({ className := cname, extendsName := step1.1, implementsList := none }, step1.2)
  else none

structure CSharpClassMatch where
  className : List Char
  baseTypes : Option (List Char)

/-- C#: one match of `/class\s+(\w+)(?:\s*:\s*([\w,\s<>]+))?/g`; the
second `\s*` backs off one character when `[\w,\s<>]+` would otherwise be
empty. -/
def matchCSharpClassAt (l : List Char) : Option (CSharpClassMatch × List Char) :=
  if startsWithL l "class".toList then
    let r1 := l.drop 5
    let ws := r1.takeWhile isJsSpace
    if ws = [] then none
    else
      let r2 := r1.drop ws.length
      let cname := r2.takeWhile isWordChar
      if cname = [] then none
      else
        let r3 := r2.drop cname.length
        let baseTry : Option (List Char × List Char) :=
          let w1 := r3.takeWhile isJsSpace
          let r4 := r3.drop w1.length
          match r4 with
          | ':' :: r5 =>
            let w2 := r5.takeWhile isJsSpace
            let r6 := r5.drop w2.length
            let cap0 := r6.takeWhile (fun c => isWordChar c || c = ',' || isJsSpace c || c = '<' || c = '>')
            if cap0 = [] then
              if 1 ≤ w2.length then some (w2.drop (w2.length - 1), r6) else none
            else some (cap0, r6.drop cap0.length)
          | _ => none
        match baseTry with
        | some (cap, r) => some ({ className := cname, baseTypes := some cap }, r)
        | none => some ({ className := cname, baseTypes := none }, r3)
  else none

/-- Java: one match of `/@(\w+)(?:\([^)]*\))?/g`, yielding the annotation
name; the optional argument group fails harmlessly when no `)` follows. -/
def matchAnnotationAt (l : List Char) : Option (List Char × List Char) :=
  match l with
  | '@' :: r1 =>
    let name := r1.takeWhile isWordChar
    if name = [] then none
    else
      let r2 := r1.drop name.length
      match r2 with
      | '(' :: r3 =>
        let inner := r3.takeWhile (fun c => ¬ c = ')')
        if inner.length = r3.length then some (name, r2)
        else some (name, r3.drop (inner.length + 1))
      | _ => some (name, r2)
  | _ => none

/-- Java: one match of
`/@Autowired\s+(?:private|protected|public)?\s*(\w+)\s+(\w+);/g`,
yielding (service type, field name). The optional access modifier is
tried literally first and backtracks to empty. -/
def matchAutowiredAt (l : List Char) : Option ((List Char × List Char) × List Char) :=
  if startsWithL l "@Autowired".toList then
    let r1 := l.drop 10
    let ws := r1.takeWhile isJsSpace
    if ws = [] then none
    else
      let r2 := r1.drop ws.length
      let tryTail : List Char → Option ((List Char × List Char) × List Char) := fun s =>
        let w1 := s.takeWhile isJsSpace
        let s1 := s.drop w1.length
        let ty := s1.takeWhile isWordChar
        if ty = [] then none
        else
          let s2 := s1.drop ty.length
          let w2 := s2.takeWhile isJsSpace
          if w2 = [] then none
          else
            let s3 := s2.drop w2.length
            let fd := s3.takeWhile isWordChar
            if fd = [] then none
            else
              match s3.drop fd.length with
              | ';' :: s4 => some ((ty, fd), s4)
              | _ => none
      let tryMod : String → Option ((List Char × List Char) × List Char) := fun mword =>
        if startsWithL r2 mword.toList then tryTail (r2.drop mword.length) else none
      match tryMod "private" with
      | some res => some res
      | none =>
        match tryMod "protected" with
        | some res => some res
        | none =>
          match tryMod "public" with
          | some res => some res
          | none => tryTail r2
  else none

/-- C#: one match of
`/(?:private|protected|public)\s+readonly\s+I(\w+)\s+_(\w+);/g`,
yielding (interface name without the leading `I`, field name). -/
def matchCSharpDIAt (l : List Char) : Option ((List Char × List Char) × List Char) :=
  let tryFromMod : List Char → Option ((List Char × List Char) × List Char) := fun rest =>
    let w1 := rest.takeWhile isJsSpace
    if w1 = [] then none
    else
      let r1 := rest.drop w1.length
      if startsWithL r1 "readonly".toList then
        let r2 := r1.drop 8
        let w2 := r2.takeWhile isJsSpace
        if w2 = [] then none
        else
          let r3 := r2.drop w2.length
          match r3 with
          | 'I' :: r4 =>
            let iname := r4.takeWhile isWordChar
            if iname = [] then none
            else
              let r5 := r4.drop iname.length
              let w3 := r5.takeWhile isJsSpace
              if w3 = [] then none
              else
                let r6 := r5.drop w3.length
                match r6 with
                | '_' :: r7 =>
                  let fname := r7.takeWhile isWordChar
                  if fname = [] then none
                  else
                    match r7.drop fname.length with
                    | ';' :: r8 => some ((iname, fname), r8)
                    | _ => none
                | _ => none
          | _ => none
      else none
  if startsWithL l "private".toList then tryFromMod (l.drop 7)
  else if startsWithL l "protected".toList then tryFromMod (l.drop 9)
  else if startsWithL l "public".toList then tryFromMod (l.drop 6)
  else none

/-- JS `baseType.replace(/<.*>/, '')`: remove the first `<`...`>` run,
where `.` does not cross a newline and `.*` is greedy (so the removal
extends to the last `>` on the line of the `<`). -/
def replaceAngleAux : List Char → List Char
  | [] => []
  | c :: rest =>
    if c = '<' then
      let line := rest.takeWhile (fun x => ¬ x = '\n')
      match line.reverse.findIdx? (fun x => x = '>') with
      | some k => rest.drop (line.length - k)
      | none => c :: replaceAngleAux rest
    else c :: replaceAngleAux rest

/-! ## Import and symbol resolution -/

/-- `importPath.replace(/\./g, '/')`. -/
def dotsToSlashes (s : String) : String :=
  ⟨s.toList.map (fun c => if c = '.' then '/' else c)⟩

/-- Project marker probe order of `findProjectRoot`. -/
def markers : List String :=
  ["package.json", "pom.xml", "build.gradle", "go.mod", "*.csproj", "*.sln", ".git"]

/-- JS `marker.replace('*', '')` (first occurrence only). -/
def removeFirstChar (x : Char) : List Char → List Char
  | [] => []
  | c :: cs => if c = x then cs else c :: removeFirstChar x cs

/-- One marker probe of `findProjectRoot`; starred markers list the
directory, which can fail. -/
def checkMarker (fsm : FSModel) (cur marker : String) : Except IOErr Bool :=
  if marker = ".git" then .ok (fsm.pathExists (joinPath cur marker))
  else if containsS marker "*" then
    match fsm.readdir cur with
    | .error e => .error e
    | .ok files => .ok (files.any (fun f => endsWithS f (⟨removeFirstChar '*' marker.toList⟩ : String)))
  else .ok (fsm.pathExists (joinPath cur marker))

def checkMarkers (fsm : FSModel) (cur : String) : List String → Except IOErr Bool
  | [] => .ok false
  | mk :: rest =>
    match checkMarker fsm cur mk with
    | .error e => .error e
    | .ok true => .ok true
    | .ok false => checkMarkers fsm cur rest

def findProjectRootAux (fsm : FSModel) : Nat → String → Except IOErr (Option String)
  | 0, _ => .ok none
  | fuel + 1, cur =>
    if cur = dirname cur then .ok none
    else
      match checkMarkers fsm cur markers with
      | .error e => .error e
      | .ok true => .ok (some cur)
      | .ok false => findProjectRootAux fsm fuel (dirname cur)

/-- `ContextAnalyzer.findProjectRoot`: walk ancestors of the file until a
marker is found or `dirname` reaches its fixed point. `dirname` strictly
shortens a path until the fixed point, so the fuel reproduces the loop. -/
def findProjectRoot (fsm : FSModel) (filePath : String) : Except IOErr (Option String) :=
  findProjectRootAux fsm (filePath.length + 1) (dirname filePath)

/-- First candidate path that exists on disk. -/
def firstExisting (fsm : FSModel) : List String → Option String
  | [] => none
  | p :: rest => if fsm.pathExists p then some p else firstExisting fsm rest

/-- `ContextAnalyzer.resolveGoImport`. -/
def resolveGoImport (fsm : FSModel) (filePath imp : String) : Except IOErr (Option String) :=
  if startsWithS imp "./" || startsWithS imp "../" then
    let basePath := dirname filePath
    let resolved := pathResolve fsm.cwd basePath imp
    if fsm.pathExists resolved then
      match fsm.readdir resolved with
      | .error e => .error e
      | .ok files =>
        match files.find? (fun f => endsWithS f ".go") with
        | some goFile => .ok (some (joinPath resolved goFile))
        | none => .ok none
    else .ok none
  else .ok none

/-- `ContextAnalyzer.resolveJavaImport`. -/
def resolveJavaImport (fsm : FSModel) (filePath imp : String) : Except IOErr (Option String) :=
  let relativePath := dotsToSlashes imp ++ ".java"
  match findProjectRoot fsm filePath with
  | .error e => .error e
  | .ok none => .ok none
  | .ok (some root) =>
    .ok (firstExisting fsm
      [joinPath (joinPath (joinPath (joinPath root "src") "main") "java") relativePath,
       joinPath (joinPath root "src") relativePath,
       joinPath (dirname filePath) relativePath])

/-- `ContextAnalyzer.resolveCSharpUsing`. -/
def resolveCSharpUsing (fsm : FSModel) (filePath imp : String) : Except IOErr (Option String) :=
  let relativePath := dotsToSlashes imp ++ ".cs"
  match findProjectRoot fsm filePath with
  | .error e => .error e
  | .ok none => .ok none
  | .ok (some root) =>
    .ok (firstExisting fsm
      [joinPath root relativePath, joinPath (dirname filePath) relativePath])

/-- `ContextAnalyzer.findClassDefinition`: first parsed module declaring a
class of that exact name. -/
def findClassDefinition (mods : List (String × CodeModule)) (className : String) : Option String :=
  (mods.find? (fun e => e.2.classes.any (fun cls => cls.name = className))).map Prod.fst

/-! ## Per-file relationship analyzers -/

/-- The resolve-and-push loop shared by the three import analyses: each
reference that resolves contributes one edge; a reference that does not
resolve contributes nothing; a resolution error aborts. -/
def resolveLoop (resolve : String → Except IOErr (Option String)) (filePath : String)
    (rt : RelationType) : List String → Except IOErr (List FileRelationship)
  | [] => .ok []
  | imp :: rest =>
    match resolve imp with
    | .error e => .error e
    | .ok none => resolveLoop resolve filePath rt rest
    | .ok (some target) =>
      match resolveLoop resolve filePath rt rest with
      | .error e => .error e
      | .ok tail =>
        .ok ({ sourceFile := filePath, targetFile := target, relationType := rt, details := imp } :: tail)

/-- `ContextAnalyzer.analyzeGoRelationships`. The struct-embedding regex
loop in the source has an empty body and produces nothing. -/
def analyzeGoRelationships (fsm : FSModel) (filePath : String) (content : List Char) :
    Except IOErr (List FileRelationship) :=
  resolveLoop (resolveGoImport fsm filePath) filePath .importRel
    ((scanWith matchGoImportAt content).flatMap goImportRefs)

/-- Edges of one Java class declaration match. -/
def javaClassEdges (mods : List (String × CodeModule)) (filePath : String)
    (m : JavaClassMatch) : List FileRelationship :=
  let extEdges :=
    match m.extendsName with
    | none => []
    | some ename =>
      match findClassDefinition mods (⟨ename⟩ : String) with
      | none => []
      | some target =>
        [{ sourceFile := filePath, targetFile := target, relationType := .extendsRel,
           details := (⟨m.className⟩ : String) ++ " extends " ++ (⟨ename⟩ : String) }]
  let implEdges :=
    match m.implementsList with
    | none => []
    | some cap =>
      ((splitOnCharL ',' cap).map (fun i => (⟨trimJs i⟩ : String))).filterMap (fun iname =>
        match findClassDefinition mods iname with
        | none => none
        | some target =>
          some { sourceFile := filePath, targetFile := target, relationType := .implementsRel,
                 details := (⟨m.className⟩ : String) ++ " implements " ++ iname })
  extEdges ++ implEdges

/-- The annotation names that trigger `findServiceDependencies`. -/
def serviceAnnotationNames : List String :=
  ["Autowired", "Inject", "Service", "Component", "Repository"]

/-- `ContextAnalyzer.findServiceDependencies` (the `@Autowired` field
scan over the whole file content). -/
def autowiredEdges (mods : List (String × CodeModule)) (filePath : String)
    (content : List Char) : List FileRelationship :=
  (scanWith matchAutowiredAt content).filterMap (fun m =>
    match findClassDefinition mods (⟨m.1⟩ : String) with
    | none => none
    | some target =>
      some { sourceFile := filePath, targetFile := target, relationType := .referencesRel,
             details := "@Autowired " ++ (⟨m.1⟩ : String) ++ " " ++ (⟨m.2⟩ : String) })

/-- `ContextAnalyzer.analyzeJavaRelationships`: import edges, inheritance
edges, then one full `findServiceDependencies` pass per matching
annotation occurrence. -/
def analyzeJavaRelationships (fsm : FSModel) (mods : List (String × CodeModule))
    (filePath : String) (content : List Char) : Except IOErr (List FileRelationship) :=
  let imports := (scanWith matchJavaImportAt content).filterMap (fun cap =>
    let t := trimJs cap
    if t = [] then none else some ((⟨t⟩ : String)))
  match resolveLoop (resolveJavaImport fsm filePath) filePath .importRel imports with
  | .error e => .error e
  | .ok importEdges =>
    let classEdges := (scanWith matchJavaClassAt content).flatMap (javaClassEdges mods filePath)
    let annEdges :=
      ((scanWith matchAnnotationAt content).filter
        (fun name => serviceAnnotationNames.contains (⟨name⟩ : String))).flatMap
        (fun _ => autowiredEdges mods filePath content)
    .ok (importEdges ++ classEdges ++ annEdges)

/-- Edges of one C# class declaration match. -/
def csharpClassEdges (mods : List (String × CodeModule)) (filePath : String)
    (m : CSharpClassMatch) : List FileRelationship :=
  match m.baseTypes with
  | none => []
  | some cap =>
    ((splitOnCharL ',' cap).map trimJs).filterMap (fun baseType =>
      match findClassDefinition mods (⟨replaceAngleAux baseType⟩ : String) with
      | none => none
      | some target =>
        some { sourceFile := filePath, targetFile := target, relationType := .extendsRel,
               details := (⟨m.className⟩ : String) ++ " : " ++ (⟨baseType⟩ : String) })

/-- The C# dependency-injection field scan. -/
def csharpDIEdges (mods : List (String × CodeModule)) (filePath : String)
    (content : List Char) : List FileRelationship :=
  (scanWith matchCSharpDIAt content).filterMap (fun m =>
    let interfaceName : String := "I" ++ (⟨m.1⟩ : String)
    match findClassDefinition mods interfaceName with
    | none => none
    | some target =>
      some { sourceFile := filePath, targetFile := target, relationType := .referencesRel,
             details := "Dependency injection: " ++ interfaceName })

/-- `ContextAnalyzer.analyzeCSharpRelationships`. -/
def analyzeCSharpRelationships (fsm : FSModel) (mods : List (String × CodeModule))
    (filePath : String) (content : List Char) : Except IOErr (List FileRelationship) :=
  let usings := (scanWith matchUsingAt content).filterMap (fun cap =>
    let t := trimJs cap
    if t = [] then none else some ((⟨t⟩ : String)))
  match resolveLoop (resolveCSharpUsing fsm filePath) filePath .importRel usings with
  | .error e => .error e
  | .ok usingEdges =>
    let classEdges := (scanWith matchCSharpClassAt content).flatMap (csharpClassEdges mods filePath)
    .ok (usingEdges ++ classEdges ++ csharpDIEdges mods filePath content)

/-! ## The relationship phase -/

/-- `ContextAnalyzer.findRelationshipsForFile`: read the file content
(without a catch — a read error propagates) and dispatch on the language
tag. -/
def findRelationshipsForFile (fsm : FSModel) (mods : List (String × CodeModule))
    (filePath : String) (module : CodeModule) : Except IOErr (List FileRelationship) :=
  match fsm.readFile filePath with
  | .error e => .error e
  | .ok content =>
    match module.language with
    | .go => analyzeGoRelationships fsm filePath content.toList
    | .java => analyzeJavaRelationships fsm mods filePath content.toList
    | .csharp => analyzeCSharpRelationships fsm mods filePath content.toList

/-- `ContextAnalyzer.analyzeFileRelationships` with the shared append-only
collection `this.fileRelationships` made explicit: `st` is the collection
before the pass, and the pass appends each scanned file's edges to it. -/
def analyzeFileRelationshipsFrom (fsm : FSModel) (mods : List (String × CodeModule)) :
    List FileRelationship → List (String × CodeModule) → Except IOErr (List FileRelationship)
  | st, [] => .ok st
  | st, (f, m) :: rest =>
    match findRelationshipsForFile fsm mods f m with
    | .error e => .error e
    | .ok edges => analyzeFileRelationshipsFrom fsm mods (st ++ edges) rest

/-- The relationship phase of a fresh run (empty collection). -/
def analyzeFileRelationships (fsm : FSModel) (mods : List (String × CodeModule)) :
    Except IOErr (List FileRelationship) :=
  analyzeFileRelationshipsFrom fsm mods [] mods

/-! ## File discovery and fact parsing -/

def skipDirs : List String :=
  ["node_modules", ".git", "dist", "build", "target", "bin", "obj",
   ".idea", ".vscode", "coverage", "logs", "tmp", "temp"]

/-- `ContextAnalyzer.shouldSkipDirectory`. -/
def shouldSkipDirectory (dirName : String) : Bool :=
  skipDirs.contains dirName || startsWithS dirName "."

/-- `ParserFactory.getSupportedExtensions()`. -/
def supportedExtensions : List String := [".go", ".java", ".cs"]

/-- One directory entry as the traversal observes it: `readdir` gives the
name, `stat` classifies it (and can fail), and entering a subdirectory
lists it (which can fail). -/
inductive FSEntry where
  | file (name : String)
  | dir (name : String) (entries : List FSEntry)
  | dirFail (name : String) (e : IOErr)
  | statFail (name : String) (e : IOErr)
  | other (name : String)

/-- The recursive `traverse` of `findAllSupportedFiles`: any `stat` or
`readdir` failure anywhere propagates; skipped directories are not
entered; files are kept when their extension is supported. -/
def traverseEntries (basePath : String) : List FSEntry → Except IOErr (List String)
  | [] => .ok []
  | .statFail _ e :: _ => .error e
  | .file name :: rest =>
    match traverseEntries basePath rest with
    | .error e => .error e
    | .ok tail =>
      .ok ((if supportedExtensions.contains (extname name) then [joinPath basePath name] else []) ++ tail)
  | .dir name entries :: rest =>
    if shouldSkipDirectory name then traverseEntries basePath rest
    else
      match traverseEntries (joinPath basePath name) entries with
      | .error e => .error e
      | .ok sub =>
        match traverseEntries basePath rest with
        | .error e => .error e
        | .ok tail => .ok (sub ++ tail)
  | .dirFail name e :: rest =>
    if shouldSkipDirectory name then traverseEntries basePath rest else .error e
  | .other _ :: rest => traverseEntries basePath rest

/-- `ContextAnalyzer.findAllSupportedFiles`; the root listing is the
`readdir` of the root directory. -/
def findAllSupportedFiles (directoryPath : String) (rootListing : Except IOErr (List FSEntry)) :
    Except IOErr (List String) :=
  match rootListing with
  | .error e => .error e
  | .ok entries => traverseEntries directoryPath entries

/-- The keys of the parsed-module table (JS `Map.keys`, insertion
order). -/
def tableKeys (mods : List (String × CodeModule)) : List String :=
  mods.map Prod.fst

/-- JS `Map.set`: replace in place when the key exists, else append. -/
def insertMap (m : List (String × CodeModule)) (k : String) (v : CodeModule) :
    List (String × CodeModule) :=
  match m with
  | [] => [(k, v)]
  | (k2, v2) :: rest => if k2 = k then (k, v) :: rest else (k2, v2) :: insertMap rest k v

/-- JS `Map.get` on the insertion-ordered module table. -/
def lookupMod : List (String × CodeModule) → String → Option CodeModule
  | [], _ => none
  | (k, v) :: rest, f => if k = f then some v else lookupMod rest f

/-- `ContextAnalyzer.parseAllFiles`: files whose parse returns a module
enter the table; files whose parse is absent are skipped. -/
def parseAllFiles (parse : String → Option CodeModule) (files : List String) :
    List (String × CodeModule) :=
  files.foldl (fun m f => match parse f with | some mod => insertMap m f mod | none => m) []

/-! ## Service grouping and context assembly -/

/-- Append `f` to the group named `n`, creating the group at the end when
it is new (JS `Map` insertion order). -/
def addToGroup : List (String × List String) → String → String → List (String × List String)
  | [], n, f => [(n, [f])]
  | (n2, l) :: rest, n, f =>
    if n2 = n then (n2, l ++ [f]) :: rest else (n2, l) :: addToGroup rest n f

/-- `ContextAnalyzer.groupFilesByService` over the module-table keys. -/
def groupFilesByService (keys : List String) : List (String × List String) :=
  keys.foldl (fun gs f => addToGroup gs (extractServiceName f) f) []

def emptyContext (serviceName rootPath : String) : ServiceContext :=
  { serviceName := serviceName, rootPath := rootPath, controllers := [], services := [],
    models := [], repositories := [], configurations := [], utilities := [], tests := [],
    relationships := [], apiEndpoints := [], businessLogic := [], dataModels := [] }

/-- One iteration of the categorize-and-bucket loop of
`createServiceContext`; a file with no module in the table is skipped. -/
def addFileToContext (mods : List (String × CodeModule)) (ctx : ServiceContext)
    (filePath : String) : ServiceContext :=
  match lookupMod mods filePath with
  | none => ctx
  | some m =>
    match categorizeFile filePath with
    | "controller" => { ctx with controllers := ctx.controllers ++ [m], apiEndpoints := ctx.apiEndpoints ++ m.endpoints }
    | "service" => { ctx with services := ctx.services ++ [m], businessLogic := ctx.businessLogic ++ m.classes }
    | "model" => { ctx with models := ctx.models ++ [m], dataModels := ctx.dataModels ++ m.classes }
    | "repository" => { ctx with repositories := ctx.repositories ++ [m] }
    | "config" => { ctx with configurations := ctx.configurations ++ [m] }
    | "utility" => { ctx with utilities := ctx.utilities ++ [m] }
    | "test" => { ctx with tests := ctx.tests ++ [m] }
    | _ => { ctx with utilities := ctx.utilities ++ [m] }

/-- `ContextAnalyzer.createServiceContext`. -/
def createServiceContext (mods : List (String × CodeModule)) (rels : List FileRelationship)
    (serviceName rootPath : String) (files : List String) : ServiceContext :=
  let ctx := files.foldl (addFileToContext mods) (emptyContext serviceName rootPath)
  { ctx with relationships :=
      rels.filter (fun r => decide (r.sourceFile ∈ files) || decide (r.targetFile ∈ files)) }

/-- `ContextAnalyzer.groupIntoServiceContexts`. -/
def groupIntoServiceContexts (basePath : String) (mods : List (String × CodeModule))
    (rels : List FileRelationship) : List ServiceContext :=
  let serviceGroups := groupFilesByService (tableKeys mods)
  let contexts := serviceGroups.map (fun g => createServiceContext mods rels g.1 basePath g.2)
  let processedFiles := joinSnd serviceGroups
  let ungroupedFiles := (tableKeys mods).filter (fun f => decide (¬ f ∈ processedFiles))
  if ungroupedFiles.length > 0 then
    contexts ++ [createServiceContext mods rels "General" basePath ungroupedFiles]
  else contexts

/-- `ContextAnalyzer.analyzeDirectory`: parse all discovered files,
extract relationships, group into contexts. The try/catch in the source
logs and rethrows, so it is the identity on errors.
`extractCrossFileReferences` has an empty loop body and is omitted. -/
def analyzeDirectory (fsm : FSModel) (parse : String → Option CodeModule)
    (directoryPath : String) (rootListing : Except IOErr (List FSEntry)) :
    Except IOErr (List ServiceContext) :=
  match findAllSupportedFiles directoryPath rootListing with
  | .error e => .error e
  | .ok files =>
    let mods := parseAllFiles parse files
    match analyzeFileRelationships fsm mods with
    | .error e => .error e
    | .ok rels => .ok (groupIntoServiceContexts directoryPath mods rels)

/-! ## Dependency graph query -/

/-- One edge record of `getServiceDependencyGraph`; the source fields are
`from`/`to`/`type`, of which `from` is reserved here. -/
structure GraphEdge where
  fromName : String
  toName : String
  type : String
deriving DecidableEq

/-- The string value of the `relationType` literal. -/
def RelationType.str : RelationType → String
  | .importRel => "import"
  | .extendsRel => "extends"
  | .implementsRel => "implements"
  | .callsRel => "calls"
  | .referencesRel => "references"
  | .configRel => "config"

/-- JS `Set.add` with insertion order. -/
def insertNode (l : List String) (x : String) : List String :=
  if x ∈ l then l else l ++ [x]

/-- One loop iteration of `getServiceDependencyGraph`: when either
endpoint's derived service name matches the query, both base names join
the node set and an edge record is appended. -/
def graphStep (serviceName : String) (acc : List String × List GraphEdge)
    (r : FileRelationship) : List String × List GraphEdge :=
  if extractServiceName r.sourceFile = serviceName || extractServiceName r.targetFile = serviceName then
    (insertNode (insertNode acc.1 (basename r.sourceFile)) (basename r.targetFile),
     acc.2 ++ [{ fromName := basename r.sourceFile, toName := basename r.targetFile,
                 type := r.relationType.str }])
  else acc

/-- `ContextAnalyzer.getServiceDependencyGraph` over the relationship
collection: a pair of node set (base names, insertion-ordered) and edge
list. -/
def getServiceDependencyGraph (rels : List FileRelationship) (serviceName : String) :
    List String × List GraphEdge :=
  rels.foldl (graphStep serviceName) ([], [])

/-! ## Derived notions used by the statements -/

/-- All category buckets of a context, in declaration order. -/
def contextModules (c : ServiceContext) : List CodeModule :=
  c.controllers ++ c.services ++ c.models ++ c.repositories ++
    c.configurations ++ c.utilities ++ c.tests

/-- How many modules with the given file path sit in the buckets of a
context. -/
def countPathMods (c : ServiceContext) (f : String) : Nat :=
  (contextModules c).countP (fun m => decide (m.filePath = f))

/-- A target produced by `resolveGoImport`: a `.go` entry listed by an
existing directory. -/
def goProbedTarget (fsm : FSModel) (t : String) : Prop :=
  ∃ d entry l, fsm.pathExists d = true ∧ fsm.readdir d = .ok l ∧ entry ∈ l ∧
    endsWithS entry ".go" = true ∧ t = joinPath d entry

/-- What a stored edge target can be: a module-table key (symbol
resolution), or a nonempty path that was probed successfully — an
existing candidate path (Java/C# import resolution) or a listed `.go`
entry of an existing directory (Go import resolution). -/
def resolvedTarget (fsm : FSModel) (mods : List (String × CodeModule)) (t : String) : Prop :=
  t ∈ tableKeys mods ∨ (t ≠ "" ∧ (fsm.pathExists t = true ∨ goProbedTarget fsm t))

/-! ## Concrete fixtures for witnesses and counterexamples -/

/-- A filesystem with one Go file importing `./lib`, where `/r/a/lib`
exists and lists one `.go` file. -/
def fsmC8 : FSModel :=
  { cwd := "/w",
    readFile := fun f => if f = "/r/a/main.go" then .ok "import \"./lib\"" else .error ⟨"ENOENT"⟩,
    pathExists := fun p => p = "/r/a/lib",
    readdir := fun p => if p = "/r/a/lib" then .ok ["util.go"] else .error ⟨"ENOTDIR"⟩ }

def modC8 : CodeModule :=
  { filePath := "/r/a/main.go", language := .go, endpoints := [], classes := [],
    functions := [], lastModified := 0 }

def modsC8 : List (String × CodeModule) := [("/r/a/main.go", modC8)]

def edgeC8 : FileRelationship :=
  { sourceFile := "/r/a/main.go", targetFile := "/r/a/lib/util.go",
    relationType := .importRel, details := "./lib" }

/-- Like `fsmC8`, but `/r/a/lib` exists and is not a readable directory:
`pathExists` holds yet `readdir` fails (Node `ENOTDIR`/`EACCES`). -/
def fsmC5 : FSModel :=
  { cwd := "/w",
    readFile := fun f => if f = "/r/a/main.go" then .ok "import \"./lib\"" else .error ⟨"ENOENT"⟩,
    pathExists := fun p => p = "/r/a/lib",
    readdir := fun _ => .error ⟨"ENOTDIR"⟩ }

/-- A filesystem where every file read fails (e.g. unreadable files). -/
def fsmC7 : FSModel :=
  { cwd := "/w", readFile := fun _ => .error ⟨"EACCES"⟩,
    pathExists := fun _ => false, readdir := fun _ => .ok [] }

def parseC7 : String → Option CodeModule := fun g =>
  if g = "/p/main.go" then
    some { filePath := "/p/main.go", language := .go, endpoints := [], classes := [],
           functions := [], lastModified := 0 }
  else none

def listC7 : Except IOErr (List FSEntry) := .ok [.file "main.go"]

/-- A benign filesystem for whole-pipeline witnesses. -/
def fsmC1 : FSModel :=
  { cwd := "/w", readFile := fun _ => .ok "package main",
    pathExists := fun _ => false, readdir := fun _ => .ok [] }

def listC1 : Except IOErr (List FSEntry) := .ok [.file "UserController.go", .file "util.txt"]

def parseC1 : String → Option CodeModule := fun g =>
  if g = "/p/UserController.go" then
    some { filePath := "/p/UserController.go", language := .go, endpoints := [], classes := [],
           functions := [], lastModified := 0 }
  else none

def modUC : CodeModule :=
  { filePath := "/p/UserController.go", language := .go, endpoints := [], classes := [],
    functions := [], lastModified := 0 }

def modOS : CodeModule :=
  { filePath := "/p/OrderService.go", language := .go, endpoints := [], classes := [],
    functions := [], lastModified := 0 }

def modsC2 : List (String × CodeModule) :=
  [("/p/UserController.go", modUC), ("/p/OrderService.go", modOS)]

def relC2 : FileRelationship :=
  { sourceFile := "/p/UserController.go", targetFile := "/p/OrderService.go",
    relationType := .importRel, details := "x" }

def parseC10 : String → Option CodeModule := fun g =>
  if g = "/r/a/main.go" then some modC8 else none

def listC10 : Except IOErr (List FSEntry) := .ok [.file "main.go"]

/-! # Lemmas -/

theorem mkToList (s : String) : (⟨s.toList⟩ : String) = s := by
  cases s
  rfl

theorem toList_append (a b : String) : (a ++ b).toList = a.toList ++ b.toList := by
  cases a
  cases b
  rfl

theorem takeWhileAppend {α : Type} {p : α → Bool} (l1 : List α) (x : α) (l2 : List α)
    (h1 : ∀ a ∈ l1, p a = true) (hx : p x = false) :
    (l1 ++ x :: l2).takeWhile p = l1 := by
  induction l1 with
  | nil => simp [List.takeWhile_cons, hx]
  | cons a t ih =>
    simp only [List.cons_append, List.takeWhile_cons, h1 a (by simp)]
    exact congrArg (a :: ·) (ih (fun b hb => h1 b (by simp [hb])))

theorem dropWhile_eq_self_of_head {α : Type} {p : α → Bool} {c : α} {t : List α}
    (hc : p c = false) : (c :: t).dropWhile p = c :: t := by
  simp [List.dropWhile_cons, hc]

/-- `dropTrailingSlashes` is the identity on lists ending in a character
other than `/`. -/
theorem dropTrailingSlashes_eq_self (l : List Char) (c : Char) (t : List Char)
    (hct : l.reverse = c :: t) (hc : ¬ c = '/') : dropTrailingSlashes l = l := by
  unfold dropTrailingSlashes
  rw [hct, dropWhile_eq_self_of_head (by simp [hc]), ← hct, List.reverse_reverse]

/-- A list whose trailing slashes are already stripped stays intact when
anything is prepended. -/
theorem dropTrailingSlashes_append (l1 l2 : List Char)
    (h : dropTrailingSlashes l2 = l2) (h2 : l2 ≠ []) :
    dropTrailingSlashes (l1 ++ l2) = l1 ++ l2 := by
  obtain ⟨c, t, hct⟩ : ∃ c t, l2.reverse = c :: t := by
    cases hx : l2.reverse with
    | nil => exact absurd (by simpa using congrArg List.reverse hx) h2
    | cons c t => exact ⟨c, t, rfl⟩
  have hdw : l2.reverse.dropWhile (fun x => decide (x = '/')) = l2.reverse := by
    have h2r := congrArg List.reverse h
    unfold dropTrailingSlashes at h2r
    rwa [List.reverse_reverse] at h2r
  rw [hct] at hdw
  have h0 := (List.dropWhile_eq_self_iff.mp hdw) (by simp)
  simp only [List.get] at h0
  have hc : ¬ c = '/' := by simpa using h0
  exact dropTrailingSlashes_eq_self _ c (t ++ l1.reverse)
    (by rw [List.reverse_append, hct]; rfl) hc

/-- `path.basename` of a path whose final segment is `x`. -/
theorem basename_eq_of (p x : String) (dl : List Char)
    (hp : p.toList = dl ++ '/' :: x.toList)
    (hne : x.toList ≠ []) (hs : ∀ c ∈ x.toList, ¬ c = '/') :
    basename p = x := by
  obtain ⟨c, t, hct⟩ : ∃ c t, x.toList.reverse = c :: t := by
    cases hx : x.toList.reverse with
    | nil => exact absurd (by simpa using congrArg List.reverse hx) hne
    | cons c t => exact ⟨c, t, rfl⟩
  have hcx : c ∈ x.toList := by
    have : c ∈ x.toList.reverse := by rw [hct]; exact List.mem_cons_self c t
    simpa using this
  have hq : dropTrailingSlashes p.toList = p.toList := by
    rw [hp]
    exact dropTrailingSlashes_eq_self _ c (t ++ '/' :: dl.reverse)
      (by simp [show x.data.reverse = c :: t from hct]) (hs c hcx)
  have hseg : lastSegmentL p.toList = x.toList := by
    unfold lastSegmentL
    rw [hp, show (dl ++ '/' :: x.toList).reverse = x.toList.reverse ++ '/' :: dl.reverse by
          simp,
      takeWhileAppend x.toList.reverse '/' dl.reverse
        (fun a ha => by simp [hs a (by simpa using ha)]) (by simp)]
    simp
  have hpe : p.toList ≠ [] := by rw [hp]; simp
  simp only [basename, hq, if_neg hpe, hseg]
  exact mkToList x

/-- `path.dirname` of a path whose final segment is `x` and whose prefix
`d` is nonempty with no trailing slash. -/
theorem dirname_eq_of (p d x : String)
    (hp : p.toList = d.toList ++ '/' :: x.toList)
    (hne : x.toList ≠ []) (hs : ∀ c ∈ x.toList, ¬ c = '/')
    (hdne : d.toList ≠ []) (hd : dropTrailingSlashes d.toList = d.toList) :
    dirname p = d := by
  obtain ⟨c, t, hct⟩ : ∃ c t, x.toList.reverse = c :: t := by
    cases hx : x.toList.reverse with
    | nil => exact absurd (by simpa using congrArg List.reverse hx) hne
    | cons c t => exact ⟨c, t, rfl⟩
  have hcx : c ∈ x.toList := by
    have : c ∈ x.toList.reverse := by rw [hct]; exact List.mem_cons_self c t
    simpa using this
  have hq : dropTrailingSlashes p.toList = p.toList := by
    rw [hp]
    exact dropTrailingSlashes_eq_self _ c (t ++ '/' :: d.toList.reverse)
      (by simp [show x.data.reverse = c :: t from hct]) (hs c hcx)
  have hseg : lastSegmentL p.toList = x.toList := by
    unfold lastSegmentL
    rw [hp, show (d.toList ++ '/' :: x.toList).reverse = x.toList.reverse ++ '/' :: d.toList.reverse by
          simp,
      takeWhileAppend x.toList.reverse '/' d.toList.reverse
        (fun a ha => by simp [hs a (by simpa using ha)]) (by simp)]
    simp
  have htake : p.toList.take (p.toList.length - x.toList.length) = d.toList ++ ['/'] := by
    rw [hp]
    have hlen : (d.toList ++ '/' :: x.toList).length - x.toList.length = d.toList.length + 1 := by
      simp [List.length_append]
      omega
    rw [hlen, show d.toList ++ '/' :: x.toList = (d.toList ++ ['/']) ++ x.toList by simp,
      show d.toList.length + 1 = (d.toList ++ ['/']).length by simp]
    exact List.take_left (d.toList ++ ['/']) x.toList
  have hr : dropTrailingSlashes (d.toList ++ ['/']) = d.toList := by
    have hdw : d.toList.reverse.dropWhile (fun x => decide (x = '/')) = d.toList.reverse := by
      have h2r := congrArg List.reverse hd
      unfold dropTrailingSlashes at h2r
      rwa [List.reverse_reverse] at h2r
    unfold dropTrailingSlashes
    rw [show (d.toList ++ ['/']).reverse = '/' :: d.toList.reverse by simp,
      List.dropWhile_cons]
    simp only [decide_True, if_true, hdw, List.reverse_reverse]
  have hpe : p.toList ≠ [] := by rw [hp]; simp
  simp only [dirname, hq, if_neg hpe, hseg, htake, hr, if_neg hdne]
  exact mkToList d

/-- C3: service-name extraction is deterministic and follows the ordered
case-insensitive suffix patterns with directory fallback:
`extractServiceName` maps `UserController.go` to `User` and
`OrderService.java` to `Order` under any parent directory, maps
`helpers.go` with parent directory `utils` to `utils` under any
grandparent, and maps `main.go` at the project root to `Root`. -/
theorem C3_extractServiceName_determinism :
    (∀ d : String, extractServiceName (d ++ "/UserController.go") = "User")
    ∧ extractServiceName "UserController.go" = "User"
    ∧ (∀ d : String, extractServiceName (d ++ "/OrderService.java") = "Order")
    ∧ extractServiceName "OrderService.java" = "Order"
    ∧ (∀ d : String, extractServiceName (d ++ "/utils/helpers.go") = "utils")
    ∧ extractServiceName "utils/helpers.go" = "utils"
    ∧ extractServiceName "main.go" = "Root" := by
  refine ⟨?_, by decide, ?_, by decide, ?_, by decide, by decide⟩
  · intro d
    have hb : basename (d ++ "/UserController.go") = "UserController.go" :=
      basename_eq_of _ _ d.toList (by rw [toList_append]; rfl) (by decide) (by decide)
    simp only [extractServiceName, basenameWith, extname, hb]
    rfl
  · intro d
    have hb : basename (d ++ "/OrderService.java") = "OrderService.java" :=
      basename_eq_of _ _ d.toList (by rw [toList_append]; rfl) (by decide) (by decide)
    simp only [extractServiceName, basenameWith, extname, hb]
    rfl
  · intro d
    have hb : basename (d ++ "/utils/helpers.go") = "helpers.go" :=
      basename_eq_of _ _ (d.toList ++ "/utils".toList)
        (by rw [toList_append, List.append_assoc]; rfl) (by decide) (by decide)
    have hd : dirname (d ++ "/utils/helpers.go") = d ++ "/utils" :=
      dirname_eq_of _ _ "helpers.go"
        (by rw [toList_append, toList_append, List.append_assoc]; rfl)
        (by decide) (by decide)
        (by
          rw [toList_append]
          intro h
          exact absurd (List.append_eq_nil.mp h).2 (by decide))
        (by rw [toList_append]; exact dropTrailingSlashes_append _ _ (by decide) (by decide))
    have hdb : basename (d ++ "/utils") = "utils" :=
      basename_eq_of _ _ d.toList (by rw [toList_append]; rfl) (by decide) (by decide)
    simp only [extractServiceName, basenameWith, extname, hb, hd, hdb]
    rfl

/-- C4: file categorization applies the ordered file-name substring
checks first and the directory-name exact matches only afterwards:
`payment_repository.go` is `repository` under any parent directory, and
`index.go` inside a `controllers` directory is `controller` under any
grandparent. -/
theorem C4_categorizeFile_determinism :
    (∀ d : String, categorizeFile (d ++ "/payment_repository.go") = "repository")
    ∧ categorizeFile "payment_repository.go" = "repository"
    ∧ (∀ d : String, categorizeFile (d ++ "/controllers/index.go") = "controller")
    ∧ categorizeFile "controllers/index.go" = "controller" := by
  refine ⟨?_, by decide, ?_, by decide⟩
  · intro d
    have hb : basename (d ++ "/payment_repository.go") = "payment_repository.go" :=
      basename_eq_of _ _ d.toList (by rw [toList_append]; rfl) (by decide) (by decide)
    simp only [categorizeFile, hb]
    rfl
  · intro d
    have hb : basename (d ++ "/controllers/index.go") = "index.go" :=
      basename_eq_of _ _ (d.toList ++ "/controllers".toList)
        (by rw [toList_append, List.append_assoc]; rfl) (by decide) (by decide)
    have hd : dirname (d ++ "/controllers/index.go") = d ++ "/controllers" :=
      dirname_eq_of _ _ "index.go"
        (by rw [toList_append, toList_append, List.append_assoc]; rfl)
        (by decide) (by decide)
        (by
          rw [toList_append]
          intro h
          exact absurd (List.append_eq_nil.mp h).2 (by decide))
        (by rw [toList_append]; exact dropTrailingSlashes_append _ _ (by decide) (by decide))
    have hdb : basename (d ++ "/controllers") = "controllers" :=
      basename_eq_of _ _ d.toList (by rw [toList_append]; rfl) (by decide) (by decide)
    simp only [categorizeFile, hb, hd, hdb]
    rfl

/-! ### Graph query lemmas -/

theorem insertNode_mem (l : List String) (x y : String) :
    y ∈ insertNode l x ↔ y ∈ l ∨ y = x := by
  unfold insertNode
  by_cases h : x ∈ l
  · simp only [if_pos h]
    constructor
    · exact Or.inl
    · rintro (hy | rfl)
      · exact hy
      · exact h
  · simp [if_neg h, List.mem_append]

theorem insertNode_nodup (l : List String) (x : String) (h : l.Nodup) :
    (insertNode l x).Nodup := by
  unfold insertNode
  by_cases hx : x ∈ l
  · simpa [hx] using h
  · simp [hx, List.nodup_append, h]

theorem graphFold_edges (name : String) (rels : List FileRelationship) :
    ∀ acc, (rels.foldl (graphStep name) acc).2 =
      acc.2 ++ (rels.filter (fun r =>
          extractServiceName r.sourceFile = name || extractServiceName r.targetFile = name)).map
        (fun r => { fromName := basename r.sourceFile, toName := basename r.targetFile,
                    type := r.relationType.str }) := by
  induction rels with
  | nil => intro acc; simp
  | cons r rest ih =>
    intro acc
    simp only [List.foldl_cons, List.filter_cons]
    by_cases h : (extractServiceName r.sourceFile = name || extractServiceName r.targetFile = name) = true
    · rw [ih]
      simp [graphStep, h]
    · rw [ih]
      simp only [graphStep, Bool.not_eq_true] at h ⊢
      simp [h]

theorem graphFold_nodes_mem (name : String) (rels : List FileRelationship) :
    ∀ acc (n : String), n ∈ (rels.foldl (graphStep name) acc).1 ↔
      n ∈ acc.1 ∨ ∃ r ∈ rels,
        (extractServiceName r.sourceFile = name ∨ extractServiceName r.targetFile = name)
        ∧ (n = basename r.sourceFile ∨ n = basename r.targetFile) := by
  induction rels with
  | nil => simp
  | cons r rest ih =>
    intro acc n
    simp only [List.foldl_cons]
    rw [ih]
    unfold graphStep
    by_cases h : (extractServiceName r.sourceFile = name || extractServiceName r.targetFile = name) = true
    · have hp : extractServiceName r.sourceFile = name ∨ extractServiceName r.targetFile = name := by
        simpa using h
      simp only [if_pos h, insertNode_mem, List.mem_cons]
      constructor
      · rintro (((hn | hs) | ht) | ⟨r2, hr2, hcond, hor⟩)
        · exact Or.inl hn
        · exact Or.inr ⟨r, Or.inl rfl, hp, Or.inl hs⟩
        · exact Or.inr ⟨r, Or.inl rfl, hp, Or.inr ht⟩
        · exact Or.inr ⟨r2, Or.inr hr2, hcond, hor⟩
      · rintro (hn | ⟨r2, (rfl | hr2), hcond, hor⟩)
        · exact Or.inl (Or.inl (Or.inl hn))
        · rcases hor with hs | ht
          · exact Or.inl (Or.inl (Or.inr hs))
          · exact Or.inl (Or.inr ht)
        · exact Or.inr ⟨r2, hr2, hcond, hor⟩
    · have hp : ¬ (extractServiceName r.sourceFile = name ∨ extractServiceName r.targetFile = name) := by
        simpa using h
      simp only [if_neg h, List.mem_cons]
      constructor
      · rintro (hn | ⟨r2, hr2, hcond, hor⟩)
        · exact Or.inl hn
        · exact Or.inr ⟨r2, Or.inr hr2, hcond, hor⟩
      · rintro (hn | ⟨r2, (rfl | hr2), hcond, hor⟩)
        · exact Or.inl hn
        · exact absurd hcond hp
        · exact Or.inr ⟨r2, hr2, hcond, hor⟩

theorem graphFold_nodes_nodup (name : String) (rels : List FileRelationship) :
    ∀ acc, acc.1.Nodup → (rels.foldl (graphStep name) acc).1.Nodup := by
  induction rels with
  | nil => intro acc h; exact h
  | cons r rest ih =>
    intro acc h
    simp only [List.foldl_cons]
    refine ih _ ?_
    unfold graphStep
    split
    · exact insertNode_nodup _ _ (insertNode_nodup _ _ h)
    · exact h

theorem graphFold_noMatch (name : String) (rels : List FileRelationship)
    (h : ∀ r ∈ rels, ¬ (extractServiceName r.sourceFile = name ∨ extractServiceName r.targetFile = name)) :
    ∀ acc, rels.foldl (graphStep name) acc = acc := by
  induction rels with
  | nil => intro acc; rfl
  | cons r rest ih =>
    intro acc
    simp only [List.foldl_cons]
    have hr : ¬ (extractServiceName r.sourceFile = name || extractServiceName r.targetFile = name) = true := by
      simpa using h r (by simp)
    rw [show graphStep name acc r = acc by unfold graphStep; rw [if_neg hr]]
    exact ih (fun r2 hr2 => h r2 (by simp [hr2])) acc

/-- C9: the dependency-graph query is a pure function of the relationship
collection: its edge list is exactly the `{from, to, type}` record of
every relationship one of whose endpoints derives the queried service
name, its node set is exactly the base names of those relationships'
endpoint files (without duplicates), and when no relationship matches it
returns empty structures. -/
theorem C9_dependency_graph_query (rels : List FileRelationship) (name : String) :
    (getServiceDependencyGraph rels name).2 =
      (rels.filter (fun r =>
          extractServiceName r.sourceFile = name || extractServiceName r.targetFile = name)).map
        (fun r => { fromName := basename r.sourceFile, toName := basename r.targetFile,
                    type := r.relationType.str })
    ∧ (∀ n : String, n ∈ (getServiceDependencyGraph rels name).1 ↔
        ∃ r ∈ rels,
          (extractServiceName r.sourceFile = name ∨ extractServiceName r.targetFile = name)
          ∧ (n = basename r.sourceFile ∨ n = basename r.targetFile))
    ∧ (getServiceDependencyGraph rels name).1.Nodup
    ∧ ((∀ r ∈ rels, ¬ (extractServiceName r.sourceFile = name ∨ extractServiceName r.targetFile = name)) →
        getServiceDependencyGraph rels name = ([], [])) := by
  refine ⟨?_, ?_, ?_, ?_⟩
  · simpa using graphFold_edges name rels ([], [])
  · intro n
    simpa using graphFold_nodes_mem name rels ([], []) n
  · exact graphFold_nodes_nodup name rels ([], []) (by simp)
  · intro h
    exact graphFold_noMatch name rels h ([], [])

/-- C9 witness: a concrete query instance. The relationship from
`/p/UserController.go` to `/p/sub/UserService.go` matches the query
`User`; a query for a service no endpoint derives returns empty
structures. -/
theorem C9_dependency_graph_query_witness :
    getServiceDependencyGraph
      [{ sourceFile := "/p/UserController.go", targetFile := "/p/sub/UserService.go",
         relationType := .importRel, details := "./sub" }] "None" = ([], []) ∧
    "UserController.go" ∈ (getServiceDependencyGraph
      [{ sourceFile := "/p/UserController.go", targetFile := "/p/sub/UserService.go",
         relationType := .importRel, details := "./sub" }] "User").1 := by
  constructor
  · exact (C9_dependency_graph_query _ "None").2.2.2 (by decide)
  · exact ((C9_dependency_graph_query _ "User").2.1 "UserController.go").mpr
      ⟨{ sourceFile := "/p/UserController.go", targetFile := "/p/sub/UserService.go",
         relationType := .importRel, details := "./sub" }, by simp, by decide, by decide⟩

/-! ### Relationship phase: state decomposition -/

/-- Running the relationship pass starting from collection `st` appends
the same edges as a fresh pass: the pass is deterministic and only ever
appends. -/
theorem relsFrom_decompose (fsm : FSModel) (mods : List (String × CodeModule)) :
    ∀ (l : List (String × CodeModule)) (st : List FileRelationship),
      analyzeFileRelationshipsFrom fsm mods st l =
        Except.map (fun E => st ++ E) (analyzeFileRelationshipsFrom fsm mods [] l) := by
  intro l
  induction l with
  | nil => intro st; simp [analyzeFileRelationshipsFrom, Except.map]
  | cons fm rest ih =>
    intro st
    obtain ⟨f, m⟩ := fm
    simp only [analyzeFileRelationshipsFrom]
    cases h : findRelationshipsForFile fsm mods f m with
    | error e => simp [Except.map]
    | ok edges =>
      dsimp only
      rw [ih (st ++ edges), ih ([] ++ edges)]
      cases analyzeFileRelationshipsFrom fsm mods [] rest with
      | error e => simp [Except.map]
      | ok tail => simp [Except.map, List.append_assoc]

/-- C8 counterexample: the relationship collection is shared and
append-only, so invoking the extraction pass a second time on the same
analyzer doubles the collection instead of reproducing it.  With one
resolvable Go import, a fresh pass stores one edge, and the second pass
leaves the collection with two copies, which is not a permutation of the
single-run collection. -/
theorem C8_counterexample :
    analyzeFileRelationships fsmC8 modsC8 = .ok [edgeC8]
    ∧ analyzeFileRelationshipsFrom fsmC8 modsC8 [edgeC8] modsC8 = .ok [edgeC8, edgeC8]
    ∧ ¬ List.Perm [edgeC8, edgeC8] [edgeC8] := by
  refine ⟨rfl, rfl, ?_⟩
  intro h
  exact absurd h.length_eq (by decide)

/-- C8 amended: each pass of relationship extraction over unchanged
inputs appends the same edge list (determinism), so re-running on the
same instance leaves the collection holding two copies of the single-run
edge list — equal to the single-run multiset only when it is empty. -/
theorem C8_rerun_appends (fsm : FSModel) (mods : List (String × CodeModule))
    (E : List FileRelationship) (h : analyzeFileRelationships fsm mods = .ok E) :
    analyzeFileRelationshipsFrom fsm mods E mods = .ok (E ++ E)
    ∧ (E ≠ [] → ¬ List.Perm (E ++ E) E) := by
  constructor
  · rw [relsFrom_decompose fsm mods mods E]
    unfold analyzeFileRelationships at h
    rw [h]
    rfl
  · intro hne hperm
    have hl := hperm.length_eq
    simp only [List.length_append] at hl
    have : E.length = 0 := by omega
    exact hne (List.length_eq_zero.mp this)

/-- C8 witness: the amended statement at the concrete one-import
filesystem. -/
theorem C8_rerun_appends_witness :
    analyzeFileRelationshipsFrom fsmC8 modsC8 [edgeC8] modsC8 = .ok ([edgeC8] ++ [edgeC8]) :=
  (C8_rerun_appends fsmC8 modsC8 [edgeC8] rfl).1

/-! ### Path nonemptiness -/

theorem string_append_ne_empty_right (a b : String) (hb : b ≠ "") : a ++ b ≠ "" := by
  intro hc
  apply hb
  have h2 := congrArg String.toList hc
  rw [toList_append] at h2
  have h3 := (List.append_eq_nil.mp h2).2
  have h4 := congrArg (fun l => (⟨l⟩ : String)) h3
  simpa [mkToList] using h4

theorem string_append_ne_empty_left (a b : String) (ha : a ≠ "") : a ++ b ≠ "" := by
  intro hc
  apply ha
  have h2 := congrArg String.toList hc
  rw [toList_append] at h2
  have h3 := (List.append_eq_nil.mp h2).1
  have h4 := congrArg (fun l => (⟨l⟩ : String)) h3
  simpa [mkToList] using h4

theorem normStep_ne_empty (isAbs : Bool) (acc : List String) (s : String)
    (h : ∀ x ∈ acc, x ≠ "") : ∀ x ∈ normStep isAbs acc s, x ≠ "" := by
  intro x hx
  unfold normStep at hx
  by_cases h1 : (s = "" || s = ".") = true
  · rw [if_pos h1] at hx
    exact h x hx
  · rw [if_neg h1] at hx
    have hs : s ≠ "" := by
      intro hs2
      exact h1 (by simp [hs2])
    by_cases h2 : s = ".."
    · rw [if_pos h2] at hx
      cases acc with
      | nil =>
        cases isAbs with
        | false =>
          simp only [Bool.false_eq_true, if_false, List.mem_singleton] at hx
          subst hx
          decide
        | true => simp at hx
      | cons t rest =>
        dsimp only at hx
        by_cases h3 : t = ".."
        · rw [if_pos h3] at hx
          rcases List.mem_cons.mp hx with rfl | hx2
          · exact hs
          · exact h x hx2
        · rw [if_neg h3] at hx
          exact h x (List.mem_cons_of_mem t hx)
    · rw [if_neg h2] at hx
      rcases List.mem_cons.mp hx with rfl | hx2
      · exact hs
      · exact h x hx2

theorem foldl_normStep_ne_empty (isAbs : Bool) (segs : List String) :
    ∀ acc, (∀ x ∈ acc, x ≠ "") → ∀ x ∈ segs.foldl (normStep isAbs) acc, x ≠ "" := by
  induction segs with
  | nil => intro acc h; exact h
  | cons s rest ih =>
    intro acc h
    exact ih (normStep isAbs acc s) (normStep_ne_empty isAbs acc s h)

theorem normSegs_ne_empty (isAbs : Bool) (segs : List String) :
    ∀ x ∈ normSegs isAbs segs, x ≠ "" := by
  intro x hx
  unfold normSegs at hx
  exact foldl_normStep_ne_empty isAbs segs [] (by simp) x (by simpa using hx)

theorem joinSegs_ne_empty : ∀ (l : List String), (∀ x ∈ l, x ≠ "") → l ≠ [] → joinSegs l ≠ ""
  | [], _, h => absurd rfl h
  | [s], h, _ => by simpa [joinSegs] using h s (by simp)
  | s :: t :: rest, _, _ => by
    simp only [joinSegs]
    exact string_append_ne_empty_left _ _ (string_append_ne_empty_right s "/" (by decide))

theorem assemblePath_ne_empty (isAbs : Bool) (segs : List String) :
    assemblePath isAbs segs ≠ "" := by
  unfold assemblePath
  cases hn : normSegs isAbs segs with
  | nil => cases isAbs <;> decide
  | cons a l =>
    have hne := joinSegs_ne_empty (a :: l)
      (fun x hx => normSegs_ne_empty isAbs segs x (hn ▸ hx)) (by simp)
    exact string_append_ne_empty_right _ _ hne

theorem joinPath_ne_empty (a b : String) : joinPath a b ≠ "" := by
  unfold joinPath
  split
  · decide
  · exact assemblePath_ne_empty _ _

/-! ### Resolution success characterizations -/

theorem firstExisting_some (fsm : FSModel) :
    ∀ (l : List String) (t : String), firstExisting fsm l = some t →
      fsm.pathExists t = true ∧ t ∈ l := by
  intro l
  induction l with
  | nil => intro t h; simp [firstExisting] at h
  | cons p rest ih =>
    intro t h
    unfold firstExisting at h
    by_cases hp : fsm.pathExists p = true
    · rw [if_pos hp] at h
      injection h with h2
      subst h2
      exact ⟨hp, by simp⟩
    · rw [if_neg hp] at h
      obtain ⟨h1, h2⟩ := ih t h
      exact ⟨h1, by simp [h2]⟩

theorem resolveGoImport_ok_some (fsm : FSModel) (fp imp t : String)
    (h : resolveGoImport fsm fp imp = .ok (some t)) :
    t ≠ "" ∧ goProbedTarget fsm t := by
  simp only [resolveGoImport] at h
  by_cases h1 : (startsWithS imp "./" || startsWithS imp "../") = true
  · rw [if_pos h1] at h
    by_cases h2 : fsm.pathExists (pathResolve fsm.cwd (dirname fp) imp) = true
    · rw [if_pos h2] at h
      cases hrd : fsm.readdir (pathResolve fsm.cwd (dirname fp) imp) with
      | error e => rw [hrd] at h; simp at h
      | ok files =>
        rw [hrd] at h
        dsimp only at h
        cases hf : files.find? (fun f => endsWithS f ".go") with
        | none => rw [hf] at h; simp at h
        | some goFile =>
          rw [hf] at h
          simp only [Except.ok.injEq, Option.some.injEq] at h
          refine ⟨h ▸ joinPath_ne_empty _ _,
            pathResolve fsm.cwd (dirname fp) imp, goFile, files, h2, hrd,
            List.mem_of_find?_eq_some hf, by simpa using List.find?_some hf, h.symm⟩
    · rw [if_neg h2] at h
      simp at h
  · rw [if_neg h1] at h
    simp at h

theorem resolveJavaImport_ok_some (fsm : FSModel) (fp imp t : String)
    (h : resolveJavaImport fsm fp imp = .ok (some t)) :
    t ≠ "" ∧ fsm.pathExists t = true := by
  simp only [resolveJavaImport] at h
  cases hr : findProjectRoot fsm fp with
  | error e => rw [hr] at h; simp at h
  | ok oroot =>
    rw [hr] at h
    cases oroot with
    | none => simp at h
    | some root =>
      simp only [Except.ok.injEq] at h
      obtain ⟨hpe, hmem⟩ := firstExisting_some fsm _ t h
      refine ⟨?_, hpe⟩
      simp only [List.mem_cons, List.mem_singleton, List.not_mem_nil, or_false] at hmem
      rcases hmem with rfl | rfl | rfl <;> exact joinPath_ne_empty _ _

theorem resolveCSharpUsing_ok_some (fsm : FSModel) (fp imp t : String)
    (h : resolveCSharpUsing fsm fp imp = .ok (some t)) :
    t ≠ "" ∧ fsm.pathExists t = true := by
  simp only [resolveCSharpUsing] at h
  cases hr : findProjectRoot fsm fp with
  | error e => rw [hr] at h; simp at h
  | ok oroot =>
    rw [hr] at h
    cases oroot with
    | none => simp at h
    | some root =>
      simp only [Except.ok.injEq] at h
      obtain ⟨hpe, hmem⟩ := firstExisting_some fsm _ t h
      refine ⟨?_, hpe⟩
      simp only [List.mem_cons, List.mem_singleton, List.not_mem_nil, or_false] at hmem
      rcases hmem with rfl | rfl <;> exact joinPath_ne_empty _ _

theorem findClassDefinition_some (mods : List (String × CodeModule)) (c t : String)
    (h : findClassDefinition mods c = some t) : t ∈ tableKeys mods := by
  unfold findClassDefinition at h
  obtain ⟨e, he, het⟩ := Option.map_eq_some'.mp h
  exact List.mem_map.mpr ⟨e, List.mem_of_find?_eq_some he, het⟩

/-! ### Edge shape of the per-file analyzers -/

theorem resolveLoop_mem (resolve : String → Except IOErr (Option String)) (fp : String)
    (rt : RelationType) (P : String → Prop)
    (hres : ∀ imp t, resolve imp = .ok (some t) → P t) :
    ∀ (refs : List String) (edges : List FileRelationship),
      resolveLoop resolve fp rt refs = .ok edges →
      ∀ e ∈ edges, e.sourceFile = fp ∧ e.relationType = rt ∧ P e.targetFile := by
  intro refs
  induction refs with
  | nil =>
    intro edges h e he
    unfold resolveLoop at h
    simp only [Except.ok.injEq] at h
    subst h
    simp at he
  | cons imp rest ih =>
    intro edges h e he
    unfold resolveLoop at h
    cases hr : resolve imp with
    | error er => rw [hr] at h; simp at h
    | ok ot =>
      rw [hr] at h
      cases ot with
      | none => exact ih edges h e he
      | some target =>
        cases hl : resolveLoop resolve fp rt rest with
        | error er => rw [hl] at h; simp at h
        | ok tail =>
          rw [hl] at h
          simp only [Except.ok.injEq] at h
          subst h
          rcases List.mem_cons.mp he with rfl | he2
          · exact ⟨rfl, rfl, hres imp target hr⟩
          · exact ih tail hl e he2

theorem javaClassEdges_mem (mods : List (String × CodeModule)) (fp : String)
    (m : JavaClassMatch) : ∀ e ∈ javaClassEdges mods fp m,
      e.sourceFile = fp ∧ e.targetFile ∈ tableKeys mods := by
  intro e he
  unfold javaClassEdges at he
  rcases List.mem_append.mp he with h1 | h2
  · cases hx : m.extendsName with
    | none => rw [hx] at h1; simp at h1
    | some ename =>
      rw [hx] at h1
      dsimp only at h1
      cases hfc : findClassDefinition mods (⟨ename⟩ : String) with
      | none => rw [hfc] at h1; simp at h1
      | some target =>
        rw [hfc] at h1
        simp only [List.mem_singleton] at h1
        subst h1
        exact ⟨rfl, findClassDefinition_some mods _ target hfc⟩
  · cases hx : m.implementsList with
    | none => rw [hx] at h2; simp at h2
    | some cap =>
      rw [hx] at h2
      dsimp only at h2
      obtain ⟨iname, _, he2⟩ := List.mem_filterMap.mp h2
      cases hfc : findClassDefinition mods iname with
      | none => rw [hfc] at he2; simp at he2
      | some target =>
        rw [hfc] at he2
        simp only [Option.some.injEq] at he2
        subst he2
        exact ⟨rfl, findClassDefinition_some mods _ target hfc⟩

theorem autowiredEdges_mem (mods : List (String × CodeModule)) (fp : String)
    (content : List Char) : ∀ e ∈ autowiredEdges mods fp content,
      e.sourceFile = fp ∧ e.targetFile ∈ tableKeys mods := by
  intro e he
  unfold autowiredEdges at he
  obtain ⟨m, _, he2⟩ := List.mem_filterMap.mp he
  cases hfc : findClassDefinition mods (⟨m.1⟩ : String) with
  | none => rw [hfc] at he2; simp at he2
  | some target =>
    rw [hfc] at he2
    simp only [Option.some.injEq] at he2
    subst he2
    exact ⟨rfl, findClassDefinition_some mods _ target hfc⟩

theorem csharpClassEdges_mem (mods : List (String × CodeModule)) (fp : String)
    (m : CSharpClassMatch) : ∀ e ∈ csharpClassEdges mods fp m,
      e.sourceFile = fp ∧ e.targetFile ∈ tableKeys mods := by
  intro e he
  unfold csharpClassEdges at he
  cases hx : m.baseTypes with
  | none => rw [hx] at he; simp at he
  | some cap =>
    rw [hx] at he
    dsimp only at he
    obtain ⟨baseType, _, he2⟩ := List.mem_filterMap.mp he
    cases hfc : findClassDefinition mods (⟨replaceAngleAux baseType⟩ : String) with
    | none => rw [hfc] at he2; simp at he2
    | some target =>
      rw [hfc] at he2
      simp only [Option.some.injEq] at he2
      subst he2
      exact ⟨rfl, findClassDefinition_some mods _ target hfc⟩

theorem csharpDIEdges_mem (mods : List (String × CodeModule)) (fp : String)
    (content : List Char) : ∀ e ∈ csharpDIEdges mods fp content,
      e.sourceFile = fp ∧ e.targetFile ∈ tableKeys mods := by
  intro e he
  unfold csharpDIEdges at he
  obtain ⟨m, _, he2⟩ := List.mem_filterMap.mp he
  dsimp only at he2
  cases hfc : findClassDefinition mods ("I" ++ (⟨m.1⟩ : String)) with
  | none => rw [hfc] at he2; simp at he2
  | some target =>
    rw [hfc] at he2
    simp only [Option.some.injEq] at he2
    subst he2
    exact ⟨rfl, findClassDefinition_some mods _ target hfc⟩

theorem goEdges_mem (fsm : FSModel) (mods : List (String × CodeModule)) (fp : String)
    (content : List Char) (edges : List FileRelationship)
    (h : analyzeGoRelationships fsm fp content = .ok edges) :
    ∀ e ∈ edges, e.sourceFile = fp ∧ resolvedTarget fsm mods e.targetFile := by
  intro e he
  obtain ⟨hs, _, hne, hP⟩ := resolveLoop_mem (resolveGoImport fsm fp) fp .importRel
    (fun t => t ≠ "" ∧ goProbedTarget fsm t)
    (fun imp t hr => resolveGoImport_ok_some fsm fp imp t hr) _ edges h e he
  exact ⟨hs, Or.inr ⟨hne, Or.inr hP⟩⟩

theorem javaEdges_mem (fsm : FSModel) (mods : List (String × CodeModule)) (fp : String)
    (content : List Char) (edges : List FileRelationship)
    (h : analyzeJavaRelationships fsm mods fp content = .ok edges) :
    ∀ e ∈ edges, e.sourceFile = fp ∧ resolvedTarget fsm mods e.targetFile := by
  simp only [analyzeJavaRelationships] at h
  cases hi : resolveLoop (resolveJavaImport fsm fp) fp .importRel
      ((scanWith matchJavaImportAt content).filterMap (fun cap =>
        let t := trimJs cap
        if t = [] then none else some ((⟨t⟩ : String)))) with
  | error er => rw [hi] at h; simp at h
  | ok importEdges =>
    rw [hi] at h
    simp only [Except.ok.injEq] at h
    subst h
    intro e he
    rcases List.mem_append.mp he with h12 | h3
    · rcases List.mem_append.mp h12 with h1 | h2
      · obtain ⟨hs, _, hne, hP⟩ := resolveLoop_mem (resolveJavaImport fsm fp) fp .importRel
          (fun t => t ≠ "" ∧ fsm.pathExists t = true)
          (fun imp t hr => resolveJavaImport_ok_some fsm fp imp t hr) _ importEdges hi e h1
        exact ⟨hs, Or.inr ⟨hne, Or.inl hP⟩⟩
      · obtain ⟨m, _, hem⟩ := List.mem_flatMap.mp h2
        obtain ⟨hs, hk⟩ := javaClassEdges_mem mods fp m e hem
        exact ⟨hs, Or.inl hk⟩
    · obtain ⟨_, _, hem⟩ := List.mem_flatMap.mp h3
      obtain ⟨hs, hk⟩ := autowiredEdges_mem mods fp content e hem
      exact ⟨hs, Or.inl hk⟩

theorem csharpEdges_mem (fsm : FSModel) (mods : List (String × CodeModule)) (fp : String)
    (content : List Char) (edges : List FileRelationship)
    (h : analyzeCSharpRelationships fsm mods fp content = .ok edges) :
    ∀ e ∈ edges, e.sourceFile = fp ∧ resolvedTarget fsm mods e.targetFile := by
  simp only [analyzeCSharpRelationships] at h
  cases hi : resolveLoop (resolveCSharpUsing fsm fp) fp .importRel
      ((scanWith matchUsingAt content).filterMap (fun cap =>
        let t := trimJs cap
        if t = [] then none else some ((⟨t⟩ : String)))) with
  | error er => rw [hi] at h; simp at h
  | ok usingEdges =>
    rw [hi] at h
    simp only [Except.ok.injEq] at h
    subst h
    intro e he
    rcases List.mem_append.mp he with h12 | h3
    · rcases List.mem_append.mp h12 with h1 | h2
      · obtain ⟨hs, _, hne, hP⟩ := resolveLoop_mem (resolveCSharpUsing fsm fp) fp .importRel
          (fun t => t ≠ "" ∧ fsm.pathExists t = true)
          (fun imp t hr => resolveCSharpUsing_ok_some fsm fp imp t hr) _ usingEdges hi e h1
        exact ⟨hs, Or.inr ⟨hne, Or.inl hP⟩⟩
      · obtain ⟨m, _, hem⟩ := List.mem_flatMap.mp h2
        obtain ⟨hs, hk⟩ := csharpClassEdges_mem mods fp m e hem
        exact ⟨hs, Or.inl hk⟩
    · obtain ⟨hs, hk⟩ := csharpDIEdges_mem mods fp content e h3
      exact ⟨hs, Or.inl hk⟩

theorem findRels_mem (fsm : FSModel) (mods : List (String × CodeModule)) (fp : String)
    (m : CodeModule) (edges : List FileRelationship)
    (h : findRelationshipsForFile fsm mods fp m = .ok edges) :
    ∀ e ∈ edges, e.sourceFile = fp ∧ resolvedTarget fsm mods e.targetFile := by
  unfold findRelationshipsForFile at h
  cases hr : fsm.readFile fp with
  | error er => rw [hr] at h; simp at h
  | ok content =>
    rw [hr] at h
    dsimp only at h
    cases hl : m.language with
    | go => rw [hl] at h; exact goEdges_mem fsm mods fp content.toList edges h
    | java => rw [hl] at h; exact javaEdges_mem fsm mods fp content.toList edges h
    | csharp => rw [hl] at h; exact csharpEdges_mem fsm mods fp content.toList edges h

/-- Every edge accumulated by a successful relationship pass either was
already in the collection or was produced while scanning one of the
listed files, with a resolved target. -/
theorem relsFrom_mem (fsm : FSModel) (mods : List (String × CodeModule)) :
    ∀ (l : List (String × CodeModule)) (st rels : List FileRelationship),
      analyzeFileRelationshipsFrom fsm mods st l = .ok rels →
      ∀ e ∈ rels, e ∈ st ∨
        ((∃ m2, (e.sourceFile, m2) ∈ l) ∧ resolvedTarget fsm mods e.targetFile) := by
  intro l
  induction l with
  | nil =>
    intro st rels h e he
    unfold analyzeFileRelationshipsFrom at h
    simp only [Except.ok.injEq] at h
    subst h
    exact Or.inl he
  | cons fm rest ih =>
    intro st rels h e he
    obtain ⟨f, m⟩ := fm
    unfold analyzeFileRelationshipsFrom at h
    cases hf : findRelationshipsForFile fsm mods f m with
    | error er => rw [hf] at h; simp at h
    | ok edges =>
      rw [hf] at h
      rcases ih (st ++ edges) rels h e he with hst | ⟨⟨m2, hm2⟩, ht⟩
      · rcases List.mem_append.mp hst with h1 | h2
        · exact Or.inl h1
        · obtain ⟨hs, ht⟩ := findRels_mem fsm mods f m edges hf e h2
          exact Or.inr ⟨⟨m, by rw [hs]; exact List.mem_cons_self _ _⟩, ht⟩
      · exact Or.inr ⟨⟨m2, List.mem_cons_of_mem _ hm2⟩, ht⟩

/-- C6 counterexample: with one Go file importing `./lib`, the stored
edge's target `/r/a/lib/util.go` was found by probing the filesystem and
is not a key of the parsed-module table, against the claim that every
stored target is a currently-known (parsed) file. -/
theorem C6_counterexample :
    analyzeFileRelationships fsmC8 modsC8 = .ok [edgeC8]
    ∧ edgeC8.targetFile ∉ tableKeys modsC8 := by
  exact ⟨rfl, by decide⟩

/-- C6 amended: for every relationship stored by a successful run,
`sourceFile` is the scanned file (hence a module-table key), and
`targetFile` is either a module-table key (extends/implements/DI
resolution) or a nonempty path probed successfully on the filesystem
(import resolution) — not necessarily a parsed file. -/
theorem C6_edge_target_amended (fsm : FSModel) (mods : List (String × CodeModule))
    (rels : List FileRelationship) (h : analyzeFileRelationships fsm mods = .ok rels) :
    ∀ e ∈ rels, e.sourceFile ∈ tableKeys mods ∧ resolvedTarget fsm mods e.targetFile := by
  intro e he
  rcases relsFrom_mem fsm mods mods [] rels h e he with h0 | ⟨⟨m2, hm⟩, ht⟩
  · simp at h0
  · exact ⟨List.mem_map.mpr ⟨(e.sourceFile, m2), hm, rfl⟩, ht⟩

/-- C6 witness: the amended statement evaluated on the concrete
one-import filesystem. -/
theorem C6_edge_target_amended_witness :
    edgeC8.sourceFile ∈ tableKeys modsC8 ∧ resolvedTarget fsmC8 modsC8 edgeC8.targetFile :=
  C6_edge_target_amended fsmC8 modsC8 [edgeC8] rfl edgeC8 (by simp)

/-- C5 counterexample: an unresolvable Go import (`./lib` exists but is
not a readable directory) makes `fs.readdir` throw inside
`resolveGoImport`, so resolution failure here IS treated as an error and
aborts the whole relationship pass instead of yielding zero edges. -/
theorem C5_counterexample :
    resolveGoImport fsmC5 "/r/a/main.go" "./lib" = .error ⟨"ENOTDIR"⟩
    ∧ analyzeGoRelationships fsmC5 "/r/a/main.go" "import \"./lib\"".toList = .error ⟨"ENOTDIR"⟩
    ∧ analyzeFileRelationships fsmC5 modsC8 = .error ⟨"ENOTDIR"⟩ := by
  exact ⟨rfl, rfl, rfl⟩

/-- C5 amended: when the per-file analysis completes without a
filesystem error, references that fail to resolve contribute no edge at
all: every edge stored for the file carries the scanned file as source
and a successfully resolved, nonempty target (assuming the table has no
empty key). A filesystem error during a resolution probe, however,
propagates as an exception instead of degrading to zero edges. -/
theorem C5_unresolvable_drop_amended (fsm : FSModel) (mods : List (String × CodeModule))
    (fp : String) (m : CodeModule) (rels : List FileRelationship)
    (h : findRelationshipsForFile fsm mods fp m = .ok rels)
    (hkey : "" ∉ tableKeys mods) :
    ∀ e ∈ rels, e.sourceFile = fp ∧ e.targetFile ≠ "" ∧ resolvedTarget fsm mods e.targetFile := by
  intro e he
  obtain ⟨hs, ht⟩ := findRels_mem fsm mods fp m rels h e he
  refine ⟨hs, ?_, ht⟩
  rcases ht with hk | ⟨hne, _⟩
  · intro hemp
    rw [hemp] at hk
    exact hkey hk
  · exact hne

/-- C5 witness: the amended statement evaluated on the concrete
one-import filesystem. -/
theorem C5_unresolvable_drop_amended_witness :
    edgeC8.sourceFile = "/r/a/main.go" ∧ edgeC8.targetFile ≠ ""
    ∧ resolvedTarget fsmC8 modsC8 edgeC8.targetFile :=
  C5_unresolvable_drop_amended fsmC8 modsC8 "/r/a/main.go" modC8 [edgeC8] rfl
    (by decide) edgeC8 (by simp)

/-! ### Counting strings -/

theorem countS_append (x : String) (l1 l2 : List String) :
    countS x (l1 ++ l2) = countS x l1 + countS x l2 :=
  List.countP_append _ l1 l2

theorem countS_flatten (x : String) :
    ∀ ll : List (List String), countS x ll.flatten = (ll.map (countS x)).sum := by
  intro ll
  induction ll with
  | nil => rfl
  | cons l rest ih => simp [List.flatten_cons, countS_append, ih]

theorem countS_zero_of_notMem (x : String) (l : List String) (h : x ∉ l) : countS x l = 0 :=
  List.countP_eq_zero.mpr (fun a ha => by simp; intro he; exact absurd (he ▸ ha) h)

theorem countS_pos_of_mem {x : String} {l : List String} (h : x ∈ l) : 0 < countS x l :=
  List.countP_pos.mpr ⟨x, h, by simp⟩

theorem mem_of_countS_pos {x : String} {l : List String} (h : 0 < countS x l) : x ∈ l := by
  obtain ⟨a, ha, he⟩ := List.countP_pos.mp h
  simp only [decide_eq_true_eq] at he
  exact he ▸ ha

theorem countS_nodup_mem (x : String) (l : List String) (hnd : l.Nodup) (hm : x ∈ l) :
    countS x l = 1 := by
  induction l with
  | nil => simp at hm
  | cons a rest ih =>
    unfold countS
    rw [List.countP_cons]
    by_cases hax : a = x
    · subst hax
      have h0 : countS a rest = 0 :=
        countS_zero_of_notMem a rest (by simpa using (List.nodup_cons.mp hnd).1)
      unfold countS at h0
      simp [h0]
    · have hx : x ∈ rest := by
        rcases List.mem_cons.mp hm with rfl | hr
        · exact absurd rfl hax
        · exact hr
      have := ih (List.Nodup.of_cons hnd) hx
      unfold countS at this
      simp [this, hax]

/-! ### The parsed-module table -/

theorem tableKeys_append (m1 m2 : List (String × CodeModule)) :
    tableKeys (m1 ++ m2) = tableKeys m1 ++ tableKeys m2 :=
  List.map_append _ m1 m2

theorem insertMap_of_notMem (m : List (String × CodeModule)) (k : String) (v : CodeModule)
    (h : k ∉ tableKeys m) : insertMap m k v = m ++ [(k, v)] := by
  induction m with
  | nil => rfl
  | cons e rest ih =>
    obtain ⟨k2, v2⟩ := e
    unfold insertMap
    have hk : ¬ k2 = k := by
      intro he
      exact h (by simp [tableKeys, he])
    rw [if_neg hk]
    rw [ih (fun hm => h (by simp [tableKeys] at hm ⊢; exact Or.inr hm))]
    simp

theorem parseAllFiles_aux (parse : String → Option CodeModule) :
    ∀ (fs : List String) (acc : List (String × CodeModule)), fs.Nodup →
      (∀ f ∈ fs, f ∉ tableKeys acc) →
      fs.foldl (fun m f => match parse f with | some mod => insertMap m f mod | none => m) acc
        = acc ++ fs.filterMap (fun f => (parse f).map (fun mod => (f, mod))) := by
  intro fs
  induction fs with
  | nil => intro acc _ _; simp
  | cons f rest ih =>
    intro acc hnd hk
    simp only [List.foldl_cons, List.filterMap_cons]
    cases hp : parse f with
    | none =>
      simp only [Option.map_none']
      exact ih acc (List.Nodup.of_cons hnd) (fun g hg => hk g (by simp [hg]))
    | some mod =>
      simp only [Option.map_some']
      rw [insertMap_of_notMem acc f mod (hk f (by simp))]
      rw [ih (acc ++ [(f, mod)]) (List.Nodup.of_cons hnd) ?_]
      · simp
      · intro g hg
        rw [tableKeys_append]
        intro hmem
        rcases List.mem_append.mp hmem with h1 | h2
        · exact hk g (by simp [hg]) h1
        · have : g = f := by simpa [tableKeys] using h2
          exact absurd (this ▸ hg) (by simpa using (List.nodup_cons.mp hnd).1)

theorem parseAllFiles_eq (parse : String → Option CodeModule) (fs : List String)
    (hnd : fs.Nodup) :
    parseAllFiles parse fs = fs.filterMap (fun f => (parse f).map (fun mod => (f, mod))) := by
  unfold parseAllFiles
  simpa using parseAllFiles_aux parse fs [] hnd (by simp [tableKeys])

theorem keys_filterMap (parse : String → Option CodeModule) :
    ∀ fs : List String,
      tableKeys (fs.filterMap (fun f => (parse f).map (fun mod => (f, mod))))
        = fs.filter (fun f => (parse f).isSome) := by
  intro fs
  induction fs with
  | nil => rfl
  | cons f rest ih =>
    simp only [List.filterMap_cons, List.filter_cons]
    cases hp : parse f with
    | none => simpa [tableKeys] using ih
    | some mod => simpa [tableKeys] using ih

theorem tableKeys_parseAllFiles (parse : String → Option CodeModule) (fs : List String)
    (hnd : fs.Nodup) :
    tableKeys (parseAllFiles parse fs) = fs.filter (fun f => (parse f).isSome) := by
  rw [parseAllFiles_eq parse fs hnd]
  exact keys_filterMap parse fs

theorem lookupMod_notMem (m : List (String × CodeModule)) (f : String)
    (h : f ∉ tableKeys m) : lookupMod m f = none := by
  induction m with
  | nil => rfl
  | cons e rest ih =>
    obtain ⟨k, v⟩ := e
    unfold lookupMod
    have hk : ¬ k = f := by
      intro he
      exact h (by simp [tableKeys, he])
    rw [if_neg hk]
    exact ih (fun hm => h (by simp [tableKeys] at hm ⊢; exact Or.inr hm))

theorem lookup_parseAllFiles (parse : String → Option CodeModule) (fs : List String)
    (hnd : fs.Nodup) : ∀ f ∈ fs, lookupMod (parseAllFiles parse fs) f = parse f := by
  rw [parseAllFiles_eq parse fs hnd]
  induction fs with
  | nil => intro f hf; simp at hf
  | cons g rest ih =>
    intro f hf
    simp only [List.filterMap_cons]
    cases hp : parse g with
    | none =>
      simp only [Option.map_none']
      by_cases hfg : f = g
      · subst hfg
        rw [lookupMod_notMem]
        · exact hp.symm
        · rw [keys_filterMap]
          intro hmem
          exact absurd (List.mem_filter.mp hmem).1 (by simpa using (List.nodup_cons.mp hnd).1)
      · exact ih (List.Nodup.of_cons hnd) f ((List.mem_cons.mp hf).resolve_left hfg)
    | some mod =>
      simp only [Option.map_some']
      unfold lookupMod
      by_cases hfg : g = f
      · subst hfg
        rw [if_pos rfl]
        exact hp.symm
      · rw [if_neg hfg]
        exact ih (List.Nodup.of_cons hnd) f
          ((List.mem_cons.mp hf).resolve_left (fun h => hfg h.symm))

theorem lookup_parseAllFiles_none (parse : String → Option CodeModule) (fs : List String)
    (g : String) (hnd : fs.Nodup) (hg : parse g = none) :
    lookupMod (parseAllFiles parse fs) g = none := by
  by_cases h : g ∈ fs
  · rw [lookup_parseAllFiles parse fs hnd g h]
    exact hg
  · apply lookupMod_notMem
    rw [tableKeys_parseAllFiles parse fs hnd]
    intro hmem
    exact h (List.mem_filter.mp hmem).1

/-! ### Service grouping -/

theorem joinSnd_cons (a : String × List String) (rest : List (String × List String)) :
    joinSnd (a :: rest) = a.2 ++ joinSnd rest := by
  simp [joinSnd]

theorem mem_joinSnd_of {gs : List (String × List String)} {p : String × List String}
    {x : String} (hp : p ∈ gs) (hx : x ∈ p.2) : x ∈ joinSnd gs :=
  List.mem_flatten.mpr ⟨p.2, List.mem_map.mpr ⟨p, hp, rfl⟩, hx⟩

theorem addToGroup_count (x : String) :
    ∀ (gs : List (String × List String)) (n f : String),
      countS x (joinSnd (addToGroup gs n f)) =
        countS x (joinSnd gs) + (if f = x then 1 else 0) := by
  intro gs
  induction gs with
  | nil =>
    intro n f
    simp [addToGroup, joinSnd, countS, List.countP_cons]
  | cons e rest ih =>
    intro n f
    obtain ⟨n2, l⟩ := e
    unfold addToGroup
    by_cases hn : n2 = n
    · rw [if_pos hn]
      rw [joinSnd_cons, joinSnd_cons]
      simp only [countS_append]
      have hone : countS x [f] = if f = x then 1 else 0 := by
        simp [countS, List.countP_cons]
      rw [hone]
      omega
    · rw [if_neg hn]
      rw [joinSnd_cons, joinSnd_cons]
      simp only [countS_append]
      rw [ih n f]
      omega

theorem groupFold_count (x : String) :
    ∀ (keys : List String) (gs : List (String × List String)),
      countS x (joinSnd (keys.foldl (fun gs f => addToGroup gs (extractServiceName f) f) gs)) =
        countS x (joinSnd gs) + countS x keys := by
  intro keys
  induction keys with
  | nil => intro gs; simp [countS]
  | cons f rest ih =>
    intro gs
    simp only [List.foldl_cons]
    rw [ih (addToGroup gs (extractServiceName f) f), addToGroup_count x gs _ f]
    unfold countS
    rw [List.countP_cons]
    simp only [decide_eq_true_eq]
    omega

theorem group_count (x : String) (keys : List String) :
    countS x (joinSnd (groupFilesByService keys)) = countS x keys := by
  unfold groupFilesByService
  rw [groupFold_count x keys []]
  simp [joinSnd, countS]

theorem addToGroup_names (gs : List (String × List String)) (n f : String) :
    groupNames (addToGroup gs n f) =
      if n ∈ groupNames gs then groupNames gs else groupNames gs ++ [n] := by
  induction gs with
  | nil => simp [addToGroup, groupNames]
  | cons e rest ih =>
    obtain ⟨n2, l⟩ := e
    by_cases hn : n2 = n
    · subst hn
      simp [addToGroup, groupNames]
    · have hn2 : ¬ n = n2 := fun h => hn h.symm
      simp only [addToGroup, if_neg hn, groupNames, List.map_cons] at ih ⊢
      rw [ih]
      by_cases h2 : n ∈ rest.map Prod.fst
      · simp [h2]
      · simp [h2, hn2]

theorem addToGroup_names_nodup (gs : List (String × List String)) (n f : String)
    (h : (groupNames gs).Nodup) : (groupNames (addToGroup gs n f)).Nodup := by
  rw [addToGroup_names]
  by_cases hm : n ∈ groupNames gs
  · rwa [if_pos hm]
  · rw [if_neg hm]
    simp [List.nodup_append, h, hm]

theorem group_names_nodup_aux :
    ∀ (keys : List String) (gs : List (String × List String)), (groupNames gs).Nodup →
      (groupNames (keys.foldl (fun gs f => addToGroup gs (extractServiceName f) f) gs)).Nodup := by
  intro keys
  induction keys with
  | nil => intro gs h; exact h
  | cons f rest ih =>
    intro gs h
    exact ih _ (addToGroup_names_nodup gs _ f h)

theorem group_names_nodup (keys : List String) :
    (groupNames (groupFilesByService keys)).Nodup :=
  group_names_nodup_aux keys [] (by simp [groupNames])

theorem addToGroup_service (gs : List (String × List String)) (n f : String)
    (h : ∀ p ∈ gs, ∀ x ∈ p.2, extractServiceName x = p.1)
    (hf : extractServiceName f = n) :
    ∀ p ∈ addToGroup gs n f, ∀ x ∈ p.2, extractServiceName x = p.1 := by
  induction gs with
  | nil =>
    intro p hp x hx
    simp only [addToGroup, List.mem_singleton] at hp
    subst hp
    simp only [List.mem_singleton] at hx
    subst hx
    exact hf
  | cons e rest ih =>
    obtain ⟨n2, l⟩ := e
    intro p hp x hx
    unfold addToGroup at hp
    by_cases hn : n2 = n
    · rw [if_pos hn] at hp
      rcases List.mem_cons.mp hp with rfl | hp2
      · rcases List.mem_append.mp hx with h1 | h2
        · exact h (n2, l) (by simp) x h1
        · simp only [List.mem_singleton] at h2
          subst h2
          rw [hf, hn]
      · exact h p (by simp [hp2]) x hx
    · rw [if_neg hn] at hp
      rcases List.mem_cons.mp hp with hpe | hp2
      · subst hpe
        exact h (n2, l) (by simp) x hx
      · exact ih (fun q hq => h q (by simp [hq])) p hp2 x hx

theorem group_service_aux :
    ∀ (keys : List String) (gs : List (String × List String)),
      (∀ p ∈ gs, ∀ x ∈ p.2, extractServiceName x = p.1) →
      ∀ p ∈ keys.foldl (fun gs f => addToGroup gs (extractServiceName f) f) gs,
        ∀ x ∈ p.2, extractServiceName x = p.1 := by
  intro keys
  induction keys with
  | nil => intro gs h; exact h
  | cons f rest ih =>
    intro gs h
    exact ih _ (addToGroup_service gs _ f h rfl)

theorem group_service (keys : List String) :
    ∀ p ∈ groupFilesByService keys, ∀ x ∈ p.2, extractServiceName x = p.1 :=
  group_service_aux keys [] (by simp)

theorem mem_group_of_mem_keys {keys : List String} {x : String} (hx : x ∈ keys) :
    ∃ p ∈ groupFilesByService keys, x ∈ p.2 ∧ p.1 = extractServiceName x := by
  have hpos : 0 < countS x (joinSnd (groupFilesByService keys)) := by
    rw [group_count]
    exact countS_pos_of_mem hx
  have hmem := mem_of_countS_pos hpos
  obtain ⟨l, hl, hxl⟩ := List.mem_flatten.mp hmem
  obtain ⟨p, hp, rfl⟩ := List.mem_map.mp hl
  exact ⟨p, hp, hxl, (group_service keys p hp x hxl).symm⟩

theorem assoc_nodup_eq {β : Type} (l : List (String × β))
    (h : (l.map Prod.fst).Nodup) :
    ∀ p q, p ∈ l → q ∈ l → p.1 = q.1 → p = q := by
  induction l with
  | nil => intro p q hp; simp at hp
  | cons a rest ih =>
    intro p q hp hq he
    rw [List.map_cons] at h
    have hnd := List.nodup_cons.mp h
    rcases List.mem_cons.mp hp with rfl | hp2
    · rcases List.mem_cons.mp hq with rfl | hq2
      · rfl
      · exact absurd (List.mem_map.mpr ⟨q, hq2, he.symm⟩) hnd.1
    · rcases List.mem_cons.mp hq with rfl | hq2
      · exact absurd (List.mem_map.mpr ⟨p, hp2, he⟩) hnd.1
      · exact ih hnd.2 p q hp2 hq2 he

/-! ### Context assembly -/

theorem contextModules_setRels (c : ServiceContext) (r : List FileRelationship) :
    contextModules { c with relationships := r } = contextModules c := rfl

theorem contextModules_addFile_none (mods : List (String × CodeModule)) (ctx : ServiceContext)
    (f : String) (h : lookupMod mods f = none) :
    contextModules (addFileToContext mods ctx f) = contextModules ctx := by
  unfold addFileToContext
  rw [h]

theorem contextModules_addFile_some (mods : List (String × CodeModule)) (ctx : ServiceContext)
    (f : String) (m : CodeModule) (p : CodeModule → Bool) (h : lookupMod mods f = some m) :
    (contextModules (addFileToContext mods ctx f)).countP p =
      (contextModules ctx).countP p + (if p m then 1 else 0) := by
  unfold addFileToContext
  rw [h]
  dsimp only
  split <;> simp [contextModules, List.countP_append, List.countP_cons] <;> omega

theorem contextModules_addFile (mods : List (String × CodeModule)) (ctx : ServiceContext)
    (f : String) (p : CodeModule → Bool) :
    (contextModules (addFileToContext mods ctx f)).countP p =
      (contextModules ctx).countP p +
        (match lookupMod mods f with
         | some m => if p m then 1 else 0
         | none => 0) := by
  cases hl : lookupMod mods f with
  | none => rw [contextModules_addFile_none mods ctx f hl]; simp
  | some m => rw [contextModules_addFile_some mods ctx f m p hl]

theorem addFile_serviceName (mods : List (String × CodeModule)) (ctx : ServiceContext)
    (f : String) : (addFileToContext mods ctx f).serviceName = ctx.serviceName := by
  unfold addFileToContext
  cases lookupMod mods f with
  | none => rfl
  | some m =>
    dsimp only
    split <;> rfl

theorem fold_serviceName (mods : List (String × CodeModule)) :
    ∀ (files : List String) (ctx : ServiceContext),
      (files.foldl (addFileToContext mods) ctx).serviceName = ctx.serviceName := by
  intro files
  induction files with
  | nil => intro ctx; rfl
  | cons f rest ih =>
    intro ctx
    simp only [List.foldl_cons]
    rw [ih (addFileToContext mods ctx f), addFile_serviceName]

theorem createServiceContext_serviceName (mods : List (String × CodeModule))
    (rels : List FileRelationship) (n rp : String) (files : List String) :
    (createServiceContext mods rels n rp files).serviceName = n := by
  unfold createServiceContext
  dsimp only
  rw [fold_serviceName]
  rfl

theorem createServiceContext_relationships (mods : List (String × CodeModule))
    (rels : List FileRelationship) (n rp : String) (files : List String) :
    (createServiceContext mods rels n rp files).relationships =
      rels.filter (fun r => decide (r.sourceFile ∈ files) || decide (r.targetFile ∈ files)) :=
  rfl

/-- Relationship membership in an assembled context. -/
theorem mem_createServiceContext_relationships (mods : List (String × CodeModule))
    (rels : List FileRelationship) (n rp : String) (files : List String)
    (r : FileRelationship) :
    r ∈ (createServiceContext mods rels n rp files).relationships ↔
      r ∈ rels ∧ (r.sourceFile ∈ files ∨ r.targetFile ∈ files) := by
  rw [createServiceContext_relationships]
  rw [List.mem_filter]
  simp

theorem countP_contextFold (mods : List (String × CodeModule)) (p : CodeModule → Bool) :
    ∀ (files : List String) (ctx : ServiceContext),
      (contextModules (files.foldl (addFileToContext mods) ctx)).countP p =
        (contextModules ctx).countP p +
          (files.map (fun f => match lookupMod mods f with
            | some m => if p m then 1 else 0
            | none => 0)).sum := by
  intro files
  induction files with
  | nil => intro ctx; simp
  | cons f rest ih =>
    intro ctx
    simp only [List.foldl_cons, List.map_cons, List.sum_cons]
    rw [ih (addFileToContext mods ctx f), contextModules_addFile]
    omega

theorem countP_createServiceContext (mods : List (String × CodeModule))
    (rels : List FileRelationship) (n rp : String) (files : List String)
    (p : CodeModule → Bool) :
    (contextModules (createServiceContext mods rels n rp files)).countP p =
      (files.map (fun f => match lookupMod mods f with
        | some m => if p m then 1 else 0
        | none => 0)).sum := by
  unfold createServiceContext
  dsimp only
  rw [contextModules_setRels, countP_contextFold]
  simp [contextModules, emptyContext]

theorem sum_contrib_eq_countS (f : String) (contrib : String → Nat) :
    ∀ l : List String, (∀ x ∈ l, contrib x = if x = f then 1 else 0) →
      (l.map contrib).sum = countS f l := by
  intro l
  induction l with
  | nil => intro _; rfl
  | cons x rest ih =>
    intro h
    simp only [List.map_cons, List.sum_cons]
    rw [h x (by simp), ih (fun y hy => h y (by simp [hy]))]
    unfold countS
    rw [List.countP_cons]
    simp only [decide_eq_true_eq]
    omega

/-- Every module-table key lands in a group, so the defensive `General`
bucket is never created: the returned contexts are exactly one per
service-name group. -/
theorem groupInto_contexts (base : String) (mods : List (String × CodeModule))
    (rels : List FileRelationship) :
    groupIntoServiceContexts base mods rels =
      (groupFilesByService (tableKeys mods)).map
        (fun g => createServiceContext mods rels g.1 base g.2) := by
  simp only [groupIntoServiceContexts]
  have hu : (tableKeys mods).filter
      (fun f => decide (¬ f ∈ joinSnd (groupFilesByService (tableKeys mods)))) = [] := by
    apply List.filter_eq_nil.mpr
    intro f hf
    simp only [decide_eq_true_eq, not_not]
    exact mem_of_countS_pos (by rw [group_count]; exact countS_pos_of_mem hf)
  rw [hu]
  simp


/-! ### The partition, filter and coverage claims -/

theorem countP_or_disjoint (X Y : String) (hne : X ≠ Y) :
    ∀ l : List String, l.countP (fun x => decide (x = X ∨ x = Y)) = countS X l + countS Y l := by
  intro l
  induction l with
  | nil => rfl
  | cons a rest ih =>
    unfold countS at ih ⊢
    rw [List.countP_cons, List.countP_cons, List.countP_cons, ih]
    by_cases haX : a = X
    · have haY : ¬ a = Y := by rw [haX]; exact hne
      simp [haX, haY, hne]
      omega
    · by_cases haY : a = Y
      · simp [haX, haY, Ne.symm hne]
        omega
      · simp [haX, haY]

/-- C1: partition property. For an analysis run over a duplicate-free
discovered file set whose fact provider keys modules by file path, the
run returns one context per service group, and every file the provider
parsed lands in exactly one category bucket of exactly one returned
ServiceContext (counted across all buckets of all contexts), while a
file whose parse is absent appears in no context at all. -/
theorem C1_partition_property (fsm : FSModel) (parse : String → Option CodeModule)
    (root : String) (rootListing : Except IOErr (List FSEntry)) (fs : List String)
    (rels : List FileRelationship) (f : String)
    (h1 : findAllSupportedFiles root rootListing = .ok fs)
    (hnd : fs.Nodup)
    (hparse : ∀ g mod, parse g = some mod → mod.filePath = g)
    (h2 : analyzeFileRelationships fsm (parseAllFiles parse fs) = .ok rels)
    (hf : f ∈ fs) :
    analyzeDirectory fsm parse root rootListing
      = .ok (groupIntoServiceContexts root (parseAllFiles parse fs) rels)
    ∧ ((parse f).isSome →
        ((groupIntoServiceContexts root (parseAllFiles parse fs) rels).map
          (fun c => countPathMods c f)).sum = 1)
    ∧ ((parse f).isNone →
        ∀ c ∈ groupIntoServiceContexts root (parseAllFiles parse fs) rels,
          countPathMods c f = 0) := by
  have hkeys : tableKeys (parseAllFiles parse fs) = fs.filter (fun g => (parse g).isSome) :=
    tableKeys_parseAllFiles parse fs hnd
  have hmemkeys : ∀ x, x ∈ tableKeys (parseAllFiles parse fs) → x ∈ fs ∧ (parse x).isSome := by
    intro x hx
    rw [hkeys] at hx
    exact ⟨(List.mem_filter.mp hx).1, (List.mem_filter.mp hx).2⟩
  have hctx : ∀ g ∈ groupFilesByService (tableKeys (parseAllFiles parse fs)),
      countPathMods (createServiceContext (parseAllFiles parse fs) rels g.1 root g.2) f
        = countS f g.2 := by
    intro g hg
    unfold countPathMods
    rw [countP_createServiceContext]
    apply sum_contrib_eq_countS
    intro x hx
    have hxk : x ∈ tableKeys (parseAllFiles parse fs) := by
      apply mem_of_countS_pos
      rw [← group_count x (tableKeys (parseAllFiles parse fs))]
      exact countS_pos_of_mem (mem_joinSnd_of hg hx)
    obtain ⟨hxfs, hxsome⟩ := hmemkeys x hxk
    obtain ⟨mx, hmx⟩ := Option.isSome_iff_exists.mp hxsome
    have hlx : lookupMod (parseAllFiles parse fs) x = some mx := by
      rw [lookup_parseAllFiles parse fs hnd x hxfs]
      exact hmx
    have hfp : mx.filePath = x := hparse x mx hmx
    rw [hlx]
    dsimp only
    rw [hfp]
    by_cases hxf : x = f <;> simp [hxf]
  refine ⟨?_, ?_, ?_⟩
  · unfold analyzeDirectory
    rw [h1]
    dsimp only
    rw [h2]
  · intro hsome
    have hmap : ((groupFilesByService (tableKeys (parseAllFiles parse fs))).map
          (fun g => createServiceContext (parseAllFiles parse fs) rels g.1 root g.2)).map
            (fun c => countPathMods c f)
        = (groupFilesByService (tableKeys (parseAllFiles parse fs))).map
            (fun g => countS f g.2) := by
      rw [List.map_map]
      exact List.map_congr_left (fun g hg => hctx g hg)
    rw [groupInto_contexts, hmap]
    have hflt : countS f (joinSnd (groupFilesByService (tableKeys (parseAllFiles parse fs))))
        = ((groupFilesByService (tableKeys (parseAllFiles parse fs))).map
            (fun g => countS f g.2)).sum := by
      unfold joinSnd
      rw [countS_flatten, List.map_map]
      rfl
    rw [← hflt, group_count, hkeys]
    exact countS_nodup_mem f _ (List.Nodup.filter _ hnd) (List.mem_filter.mpr ⟨hf, hsome⟩)
  · intro hnone c hc
    rw [groupInto_contexts] at hc
    obtain ⟨g, hg, rfl⟩ := List.mem_map.mp hc
    rw [hctx g hg]
    apply countS_zero_of_notMem
    intro hfg
    have hfk : f ∈ tableKeys (parseAllFiles parse fs) := by
      apply mem_of_countS_pos
      rw [← group_count f (tableKeys (parseAllFiles parse fs))]
      exact countS_pos_of_mem (mem_joinSnd_of hg hfg)
    have hfsome := (hmemkeys f hfk).2
    cases hp : parse f with
    | none => rw [hp] at hfsome; simp at hfsome
    | some m => rw [hp] at hnone; simp at hnone

/-- C1 witness: a pipeline over one parsed Go file and one unsupported
file; the parsed file appears in exactly one bucket of one context. -/
theorem C1_partition_property_witness :
    ((groupIntoServiceContexts "/p" (parseAllFiles parseC1 ["/p/UserController.go"]) []).map
      (fun c => countPathMods c "/p/UserController.go")).sum = 1 :=
  (C1_partition_property fsmC1 parseC1 "/p" listC1 ["/p/UserController.go"] []
    "/p/UserController.go"
    (by simp [findAllSupportedFiles, listC1, traverseEntries]; decide) (by decide)
    (by
      intro g mod h
      unfold parseC1 at h
      split at h
      next hg =>
        injection h with h2
        subst h2
        rw [hg]
      next => cases h)
    rfl (by simp)).2.1 rfl

/-- C2: context relationship filter correctness. A relationship enters a
context exactly when one of its endpoint files is among the context's
member files; consequently an edge between member files of two distinct
services Foo and Bar appears in exactly those two contexts. -/
theorem C2_context_relationship_filter (mods : List (String × CodeModule))
    (rels : List FileRelationship) (base : String) (rel : FileRelationship)
    (Foo Bar : String)
    (hnd : (tableKeys mods).Nodup)
    (hrel : rel ∈ rels)
    (hA : rel.sourceFile ∈ tableKeys mods) (hB : rel.targetFile ∈ tableKeys mods)
    (hFoo : extractServiceName rel.sourceFile = Foo)
    (hBar : extractServiceName rel.targetFile = Bar)
    (hne : Foo ≠ Bar) :
    (∀ (n rp : String) (files : List String) (r : FileRelationship),
        r ∈ (createServiceContext mods rels n rp files).relationships ↔
          r ∈ rels ∧ (r.sourceFile ∈ files ∨ r.targetFile ∈ files))
    ∧ (∀ c ∈ groupIntoServiceContexts base mods rels,
        rel ∈ c.relationships ↔ (c.serviceName = Foo ∨ c.serviceName = Bar))
    ∧ (groupIntoServiceContexts base mods rels).countP
        (fun c => decide (rel ∈ c.relationships)) = 2 := by
  have hnames : ((groupFilesByService (tableKeys mods)).map Prod.fst).Nodup :=
    group_names_nodup (tableKeys mods)
  have hiff : ∀ g ∈ groupFilesByService (tableKeys mods),
      (rel ∈ (createServiceContext mods rels g.1 base g.2).relationships ↔
        (g.1 = Foo ∨ g.1 = Bar)) := by
    intro g hg
    rw [mem_createServiceContext_relationships]
    constructor
    · rintro ⟨_, hAB | hAB⟩
      · exact Or.inl ((group_service _ g hg _ hAB).symm.trans hFoo)
      · exact Or.inr ((group_service _ g hg _ hAB).symm.trans hBar)
    · rintro (hfoo | hbar)
      · obtain ⟨p, hp, hpA, hp1⟩ := mem_group_of_mem_keys hA
        have hpg : p = g :=
          assoc_nodup_eq _ hnames p g hp hg (by rw [hp1, hFoo, hfoo])
        exact ⟨hrel, Or.inl (hpg ▸ hpA)⟩
      · obtain ⟨p, hp, hpB, hp1⟩ := mem_group_of_mem_keys hB
        have hpg : p = g :=
          assoc_nodup_eq _ hnames p g hp hg (by rw [hp1, hBar, hbar])
        exact ⟨hrel, Or.inr (hpg ▸ hpB)⟩
  refine ⟨fun n rp files r => mem_createServiceContext_relationships mods rels n rp files r,
    ?_, ?_⟩
  · intro c hc
    rw [groupInto_contexts] at hc
    obtain ⟨g, hg, rfl⟩ := List.mem_map.mp hc
    rw [createServiceContext_serviceName]
    exact hiff g hg
  · rw [groupInto_contexts, List.countP_map]
    have hcc : (groupFilesByService (tableKeys mods)).countP
          ((fun c => decide (rel ∈ c.relationships)) ∘
            (fun g => createServiceContext mods rels g.1 base g.2))
        = (groupFilesByService (tableKeys mods)).countP
          (fun g => decide (g.1 = Foo ∨ g.1 = Bar)) :=
      List.countP_congr (fun g hg => by
        simp only [Function.comp_apply, decide_eq_true_eq]
        exact hiff g hg)
    rw [hcc]
    have hmapped : (groupFilesByService (tableKeys mods)).countP
          (fun g => decide (g.1 = Foo ∨ g.1 = Bar))
        = ((groupFilesByService (tableKeys mods)).map Prod.fst).countP
          (fun x => decide (x = Foo ∨ x = Bar)) :=
      (List.countP_map (fun x => decide (x = Foo ∨ x = Bar)) Prod.fst _).symm
    rw [hmapped, countP_or_disjoint Foo Bar hne]
    obtain ⟨p, hp, _, hp1⟩ := mem_group_of_mem_keys hA
    obtain ⟨q, hq, _, hq1⟩ := mem_group_of_mem_keys hB
    rw [countS_nodup_mem Foo _ hnames (List.mem_map.mpr ⟨p, hp, hp1.trans hFoo⟩),
      countS_nodup_mem Bar _ hnames (List.mem_map.mpr ⟨q, hq, hq1.trans hBar⟩)]

/-- C2 witness: a concrete edge from a `User` member file to an `Order`
member file appears in exactly two of the returned contexts. -/
theorem C2_context_relationship_filter_witness :
    (groupIntoServiceContexts "/p" modsC2 [relC2]).countP
      (fun c => decide (relC2 ∈ c.relationships)) = 2 :=
  (C2_context_relationship_filter modsC2 [relC2] "/p" relC2 "User" "Order"
    (by decide) (by simp) (by decide) (by decide) (by decide) (by decide)
    (by decide)).2.2

/-- C10: implicit coverage. Every relationship stored by a successful run
has a module-table key as its source file, and therefore belongs to at
least one returned ServiceContext, whose member files cover all table
keys and whose filter keeps any edge with a member source file. -/
theorem C10_relationship_coverage (fsm : FSModel) (parse : String → Option CodeModule)
    (root : String) (rootListing : Except IOErr (List FSEntry)) (fs : List String)
    (rels : List FileRelationship)
    (h1 : findAllSupportedFiles root rootListing = .ok fs)
    (h2 : analyzeFileRelationships fsm (parseAllFiles parse fs) = .ok rels) :
    analyzeDirectory fsm parse root rootListing
      = .ok (groupIntoServiceContexts root (parseAllFiles parse fs) rels)
    ∧ ∀ r ∈ rels, r.sourceFile ∈ tableKeys (parseAllFiles parse fs)
        ∧ ∃ c ∈ groupIntoServiceContexts root (parseAllFiles parse fs) rels,
            r ∈ c.relationships := by
  constructor
  · unfold analyzeDirectory
    rw [h1]
    dsimp only
    rw [h2]
  · intro r hr
    have hsrc : r.sourceFile ∈ tableKeys (parseAllFiles parse fs) := by
      rcases relsFrom_mem fsm (parseAllFiles parse fs) (parseAllFiles parse fs) [] rels h2
          r hr with h0 | ⟨⟨m2, hm⟩, _⟩
      · simp at h0
      · exact List.mem_map.mpr ⟨(r.sourceFile, m2), hm, rfl⟩
    refine ⟨hsrc, ?_⟩
    obtain ⟨g, hg, hmem, _⟩ := mem_group_of_mem_keys hsrc
    refine ⟨createServiceContext (parseAllFiles parse fs) rels g.1 root g.2, ?_, ?_⟩
    · rw [groupInto_contexts]
      exact List.mem_map.mpr ⟨g, hg, rfl⟩
    · rw [mem_createServiceContext_relationships]
      exact ⟨hr, Or.inl hmem⟩

/-- C10 witness: the stored import edge of the one-file Go run belongs to
the returned `main`-service context. -/
theorem C10_relationship_coverage_witness :
    edgeC8.sourceFile ∈ tableKeys (parseAllFiles parseC10 ["/r/a/main.go"])
    ∧ ∃ c ∈ groupIntoServiceContexts "/r/a" (parseAllFiles parseC10 ["/r/a/main.go"]) [edgeC8],
        edgeC8 ∈ c.relationships :=
  (C10_relationship_coverage fsmC8 parseC10 "/r/a" listC10 ["/r/a/main.go"] [edgeC8]
    (by simp [findAllSupportedFiles, listC10, traverseEntries]; decide) rfl).2
    edgeC8 (by simp)

/-! ### Failure containment -/

/-- C7 counterexample: a single file read failure during relationship
extraction aborts the whole run (the file was discovered and parsed, but
`analyzeDirectory` rejects), and a `stat` failure inside a subdirectory
is equally fatal — not only root-level traversal errors. -/
theorem C7_counterexample :
    findAllSupportedFiles "/p" listC7 = .ok ["/p/main.go"]
    ∧ (parseC7 "/p/main.go").isSome = true
    ∧ analyzeDirectory fsmC7 parseC7 "/p" listC7 = .error ⟨"EACCES"⟩
    ∧ analyzeDirectory fsmC7 parseC7 "/p"
        (.ok [FSEntry.dir "sub" [FSEntry.statFail "f" ⟨"EIO"⟩]]) = .error ⟨"EIO"⟩ := by
  have hfs : findAllSupportedFiles "/p" listC7 = .ok ["/p/main.go"] := by
    simp [findAllSupportedFiles, listC7, traverseEntries]; decide
  have hfs2 : findAllSupportedFiles "/p"
      (.ok [FSEntry.dir "sub" [FSEntry.statFail "f" ⟨"EIO"⟩]]) = .error ⟨"EIO"⟩ := by
    simp [findAllSupportedFiles, traverseEntries]; decide
  refine ⟨hfs, rfl, ?_, ?_⟩
  · unfold analyzeDirectory
    rw [hfs]
    rfl
  · unfold analyzeDirectory
    rw [hfs2]

/-- C7 amended: a parse failure (fact provider returns absent) aborts
only that file's contribution — the file simply never enters the module
table; but a file read failure during relationship extraction, and any
traversal failure (root or subdirectory), propagate out of
`analyzeDirectory` as the originating error. `analyzeDirectory` either
returns the full ordered context sequence or rejects with the
originating error. -/
theorem C7_failure_containment_amended :
    (∀ (fsm : FSModel) (parse : String → Option CodeModule) (root : String) (e : IOErr),
        analyzeDirectory fsm parse root (.error e) = .error e)
    ∧ (∀ (fsm : FSModel) (parse : String → Option CodeModule) (root : String)
        (L : Except IOErr (List FSEntry)) (fs : List String),
        findAllSupportedFiles root L = .ok fs →
        (∀ rels, analyzeFileRelationships fsm (parseAllFiles parse fs) = .ok rels →
          analyzeDirectory fsm parse root L
            = .ok (groupIntoServiceContexts root (parseAllFiles parse fs) rels))
        ∧ (∀ e, analyzeFileRelationships fsm (parseAllFiles parse fs) = .error e →
          analyzeDirectory fsm parse root L = .error e))
    ∧ (∀ (fsm : FSModel) (mods : List (String × CodeModule))
        (st : List FileRelationship) (f : String) (m : CodeModule)
        (rest : List (String × CodeModule)) (e : IOErr),
        fsm.readFile f = .error e →
        analyzeFileRelationshipsFrom fsm mods st ((f, m) :: rest) = .error e)
    ∧ (∀ (parse : String → Option CodeModule) (fs : List String) (g : String),
        fs.Nodup → parse g = none →
        lookupMod (parseAllFiles parse fs) g = none) := by
  refine ⟨fun fsm parse root e => rfl, ?_, ?_, ?_⟩
  · intro fsm parse root L fs h1
    constructor
    · intro rels h2
      unfold analyzeDirectory
      rw [h1]
      dsimp only
      rw [h2]
    · intro e h2
      unfold analyzeDirectory
      rw [h1]
      dsimp only
      rw [h2]
  · intro fsm mods st f m rest e h
    have hfr : findRelationshipsForFile fsm mods f m = .error e := by
      unfold findRelationshipsForFile
      rw [h]
    unfold analyzeFileRelationshipsFrom
    rw [hfr]
  · intro parse fs g hnd hg
    exact lookup_parseAllFiles_none parse fs g hnd hg

/-- C7 witness: the amended statement at the concrete unreadable-file
run: extraction fails with the read error, and so does the whole
analysis. -/
theorem C7_failure_containment_amended_witness :
    analyzeDirectory fsmC7 parseC7 "/p" listC7 = .error ⟨"EACCES"⟩ :=
  (C7_failure_containment_amended.2.1 fsmC7 parseC7 "/p" listC7 ["/p/main.go"]
    (by simp [findAllSupportedFiles, listC7, traverseEntries]; decide)).2
    ⟨"EACCES"⟩ rfl

end ContextAnalyzer
